import Mathlib

/-!
Verification of the n2o5 incremental build engine against its specification.

The development shallowly embeds the core of the repository:
  * `src/db.rs`            — persisted record shapes and the database interface
  * `src/db/in_memory.rs`  — the in-memory database backend
  * `src/graph.rs`         — the build graph, its builder, and graph queries
  * `src/graph/hash.rs`    — identity hashing (`hash_build`, `hash_input_set`)
  * `src/world.rs`         — the `World` interface and `LocalWorld.execute`
  * `src/exec.rs`          — `stat_node`, `write_build`, `run_build`, and the
                             executor state machine

Modelling conventions:
  * Byte strings (paths, command arguments) are `List Nat`.
  * `SystemTime` is `Nat`; only its ordering is used by the source.
  * Machine integers use `Nat` with explicit `% 2 ^ 128` where the source
    wraps (`u128::wrapping_add`).
  * External hash primitives (xxhash3-128, blake3) are parameters of the
    embedded functions: every theorem below holds for all instantiations.
  * A Rust `panic!` / `.expect(..)` is modelled by an `Option` result,
    `none` standing for the panic.
  * `HashMap` / `IndexMap` contents are association lists; `IndexSet` is an
    insertion-ordered duplicate-free list.
-/

namespace N2o5

/-- Platform byte string (`PathBuf` / `OsStr` contents). -/
abbrev Path := List Nat

/-- `std::time::SystemTime`, modelled by its ordering only. -/
abbrev Time := Nat

/-- `std::io::Error`, modelled by its message. -/
abbrev IoErr := String

/-- Dense file index (`FileId(usize)` in `src/graph.rs`). -/
abbrev FileId := Nat

/-- Dense build-node index (`BuildId(usize)` in `src/graph.rs`). -/
abbrev BuildId := Nat

/-- Number of bytes of `BuildHash([u8; 16])` in `src/db.rs`. -/
def BuildHashNumBytes : Nat := 16

/-- Number of bytes of `InputHash([u8; 16])` in `src/db.rs`. -/
def InputHashNumBytes : Nat := 16

/-- A build-identity hash value, as a byte string (`src/db.rs` `BuildHash`). -/
abbrev BuildHash := List Nat

/-- An input-set digest value, as a byte string. -/
abbrev InputHash := List Nat

/-! ## Association-list primitives (model of `HashMap` contents) -/

/-- First-match association lookup (model of `HashMap::get`). -/
def getA {κ υ : Type} [DecidableEq κ] : List (κ × υ) → κ → Option υ
  | [], _ => none
  | (k', v) :: r, k => if k' = k then some v else getA r k

/-- Key removal (model of `HashMap::remove`). -/
def delA {κ υ : Type} [DecidableEq κ] : List (κ × υ) → κ → List (κ × υ)
  | [], _ => []
  | (k', v) :: r, k => if k' = k then delA r k else (k', v) :: delA r k

/-- Insert-or-replace (model of `HashMap::insert`). -/
def setA {κ υ : Type} [DecidableEq κ] (l : List (κ × υ)) (k : κ) (v : υ) :
    List (κ × υ) :=
  (k, v) :: delA l k

theorem getA_delA {κ υ : Type} [DecidableEq κ] (l : List (κ × υ)) (k k' : κ) :
    getA (delA l k) k' = if k = k' then none else getA l k' := by
  induction l with
  | nil => by_cases h : k = k' <;> simp [getA, delA, h]
  | cons p r ih =>
    cases p with
    | mk pk pv =>
      by_cases hp : pk = k
      · subst hp
        by_cases h : pk = k'
        · subst h
          simp [getA, delA, ih]
        · simp [getA, delA, h, ih]
      · by_cases hk' : pk = k'
        · have h2 : ¬ k = k' := fun e => hp (hk'.trans e.symm)
          subst hk'
          simp [getA, delA, hp, h2]
        · simp [getA, delA, hp, hk', ih]

theorem getA_setA {κ υ : Type} [DecidableEq κ] (l : List (κ × υ)) (k k' : κ)
    (v : υ) : getA (setA l k v) k' = if k = k' then some v else getA l k' := by
  by_cases h : k = k' <;> simp [setA, getA, h, getA_delA]

/-! ## `src/db.rs` — persisted record shapes -/

/-- `FileInfo` from `src/db.rs`: the record persisted per output file. -/
structure FileInfo where
  last_seen : Time
  generated_by : BuildHash
deriving DecidableEq

/-- `BuildInfo` from `src/db.rs`: the record persisted per build. -/
structure BuildInfo where
  last_start : Time
  last_end : Option Time
  input_set_digest : InputHash
  additional_inputs : List Path
deriving DecidableEq

/-- Contents of the database (`DbInner` from `src/db/in_memory.rs`). -/
structure DbInner where
  build_info : List (BuildHash × BuildInfo)
  file_info : List (Path × FileInfo)
deriving DecidableEq

/-- `DbReader::get_build_info`. -/
def DbInner.get_build_info (d : DbInner) (h : BuildHash) : Option BuildInfo :=
  getA d.build_info h

/-- `DbReader::get_file_info`. -/
def DbInner.get_file_info (d : DbInner) (p : Path) : Option FileInfo :=
  getA d.file_info p

/-- `DbWriter::set_build_info` for the in-memory backend: the write goes
straight through the `RwLock` write guard into the shared state. -/
def DbInner.set_build_info (d : DbInner) (h : BuildHash) (i : BuildInfo) :
    DbInner :=
  { d with build_info := setA d.build_info h i }

/-- `DbWriter::set_file_info` for the in-memory backend. -/
def DbInner.set_file_info (d : DbInner) (p : Path) (i : FileInfo) : DbInner :=
  { d with file_info := setA d.file_info p i }

/-- `DbWriter::invalidate_build` for the in-memory backend. -/
def DbInner.invalidate_build (d : DbInner) (h : BuildHash) : DbInner :=
  { d with build_info := delA d.build_info h }

/-- `DbWriter::invalidate_file` for the in-memory backend. -/
def DbInner.invalidate_file (d : DbInner) (p : Path) : DbInner :=
  { d with file_info := delA d.file_info p }

/-- The empty database (`InMemoryDb::new`). -/
def DbInner.empty : DbInner := ⟨[], []⟩

/-! ## `src/graph.rs` — build graph and builder -/

instance : DecidableEq (Except IoErr Unit) := fun a b =>
  match a, b with
  | .ok (), .ok () => isTrue rfl
  | .ok (), .error _ => isFalse (by simp)
  | .error _, .ok () => isFalse (by simp)
  | .error e, .error f =>
    if h : e = f then isTrue (by rw [h]) else isFalse (by simp [h])

/-- `BuildMethod` from `src/graph.rs`. The `Callback` variant carries a
closure in the source; its behaviour on the (fixed) user state is modelled
by the stored `outcome`, and only the `name` takes part in hashing, exactly
as in the source. -/
inductive BuildMethod where
  | SubCommand (executable : Path) (args : List Path)
  | Callback (name : Path) (outcome : Except IoErr Unit)
  | Phony
deriving DecidableEq

/-- `BuildNode` from `src/graph.rs`. -/
structure BuildNode where
  command : BuildMethod
  ins : List FileId
  outs : List FileId
  description : Option Path := none
deriving DecidableEq

/-- `BuildGraph` from `src/graph.rs`: node vector, interned file table
(`IndexSet<PathBuf>`), and the `DiGraphMap` edge set. An edge `(a, b)`
points from the consumer `a` to its dependency `b`. -/
structure BuildGraph where
  nodes : List BuildNode
  files : List Path
  edges : List (BuildId × BuildId)
deriving DecidableEq

/-- `BuildGraph::lookup_path` (`IndexSet::get_index`). -/
def BuildGraph.lookup_path (g : BuildGraph) (f : FileId) : Option Path :=
  g.files.get? f

/-- `BuildGraph::lookup_build`. -/
def BuildGraph.lookup_build (g : BuildGraph) (b : BuildId) : Option BuildNode :=
  g.nodes.get? b

/-- `BuildGraph::lookup_fileid` (`IndexSet::get_index_of`). -/
def BuildGraph.lookup_fileid (g : BuildGraph) (p : Path) : Option FileId :=
  g.files.indexOf? p

/-- `BuildGraph::build_dependencies`: outgoing neighbours of `b`. -/
def BuildGraph.build_dependencies (g : BuildGraph) (b : BuildId) :
    List BuildId :=
  (g.edges.filter (fun e => decide (e.1 = b))).map (·.2)

/-- `BuildGraph::build_dependents`: incoming neighbours of `b`. -/
def BuildGraph.build_dependents (g : BuildGraph) (b : BuildId) :
    List BuildId :=
  (g.edges.filter (fun e => decide (e.2 = b))).map (·.1)

/-- `BuildGraph::node_count`. -/
def BuildGraph.node_count (g : BuildGraph) : Nat := g.nodes.length

/-- `GraphBuilder` from `src/graph.rs`: a mutable wrapper around the graph. -/
structure GraphBuilder where
  graph : BuildGraph
deriving DecidableEq

/-- `GraphBuilder::new`. -/
def GraphBuilder.new : GraphBuilder := ⟨⟨[], [], []⟩⟩

/-- `GraphBuilder::add_file`: intern a path, returning its (old or new) id. -/
def GraphBuilder.add_file (gb : GraphBuilder) (p : Path) :
    GraphBuilder × FileId :=
  match gb.graph.files.indexOf? p with
  | some i => (gb, i)
  | none =>
    (⟨{ gb.graph with files := gb.graph.files ++ [p] }⟩, gb.graph.files.length)

/-- `GraphBuilder::add_build`: append-only node insertion. -/
def GraphBuilder.add_build (gb : GraphBuilder) (n : BuildNode) :
    GraphBuilder × BuildId :=
  (⟨{ gb.graph with nodes := gb.graph.nodes ++ [n] }⟩, gb.graph.nodes.length)

/-- `GraphBuilder::add_build_dep`: `DiGraphMap::add_edge(dependent,
dependency, ())`. The ids are not validated; absent endpoints are added to
the edge map implicitly, and an existing edge is left in place. -/
def GraphBuilder.add_build_dep (gb : GraphBuilder) (dependent dependency : BuildId) :
    GraphBuilder :=
  if (dependent, dependency) ∈ gb.graph.edges then gb
  else ⟨{ gb.graph with edges := gb.graph.edges ++ [(dependent, dependency)] }⟩

/-- `BuildError` from `src/graph.rs`: the only builder error is a cycle. -/
inductive BuildError where
  | ContainsCycle
deriving DecidableEq

/-- Successor step used by cycle detection and by the executor's failure
walk: one hop along an outgoing edge. -/
def succsE (edges : List (BuildId × BuildId)) (n : BuildId) : List BuildId :=
  (edges.filter (fun e => decide (e.1 = n))).map (·.2)

/-- One round of closure expansion along `adj`. -/
def expandBy (adj : BuildId → List BuildId) (s : List BuildId) :
    List BuildId :=
  (s ++ s.flatMap adj).dedup

/-- Fuelled closure of a seed set along `adj`. -/
def closureBy (adj : BuildId → List BuildId) : Nat → List BuildId → List BuildId
  | 0, s => s
  | n + 1, s => closureBy adj n (expandBy adj s)

/-- `petgraph::algo::is_cyclic_directed`, by its semantics: some node
reaches itself along at least one edge. -/
def isCyclicDirected (edges : List (BuildId × BuildId)) : Bool :=
  (edges.map (·.1)).any
    (fun n => n ∈ closureBy (succsE edges) (edges.length + 1) (succsE edges n))

/-- `GraphBuilder::build`: the only validation is the acyclicity check. -/
def GraphBuilder.build (gb : GraphBuilder) : Except BuildError BuildGraph :=
  if isCyclicDirected gb.graph.edges then .error .ContainsCycle
  else .ok gb.graph

/-! ## `src/graph/hash.rs` — identity hashing

The external primitives are parameters: `xxh` stands for the 128-bit
xxhash3 of a byte stream, `ph` for the split of `blake3(path)` into its
low/high little-endian 128-bit halves, and `b3c` for the blake3 compression
of the finalization bytes. All theorems hold for every instantiation. -/

/-- Little-endian encoding of `v` into `n` bytes (`u128::to_le_bytes`,
`usize::to_le_bytes`). -/
def toLeBytes : Nat → Nat → List Nat
  | 0, _ => []
  | n + 1, v => (v % 256) :: toLeBytes n (v / 256)

/-- Big-endian encoding of `v` into `n` bytes (`u128::to_be_bytes`). -/
def toBeBytes (n v : Nat) : List Nat := (toLeBytes n v).reverse

/-- Bytes of the literal `"subcmd\x00"`. -/
def subcmdTag : List Nat := [115, 117, 98, 99, 109, 100, 0]

/-- Bytes of the literal `"callback\x00"`. -/
def callbackTag : List Nat := [99, 97, 108, 108, 98, 97, 99, 107, 0]

/-- Bytes of the literal `"phony\x00"`. -/
def phonyTag : List Nat := [112, 104, 111, 110, 121, 0]

/-- Bytes of the literal `"out\x00"`. -/
def outTag : List Nat := [111, 117, 116, 0]

/-- Byte stream fed to the hasher by `hash_build` for the method part. -/
def methodBytes (m : BuildMethod) : List Nat :=
  match m with
  | .SubCommand exe args =>
    subcmdTag ++ exe ++ [0] ++ args.flatMap (fun a => a ++ [0])
  | .Callback name _ => callbackTag ++ name
  | .Phony => phonyTag

/-- `hash_build` from `src/graph/hash.rs`: hashes the method-kind tag, the
command (or callback name), the `"out\x00"` separator and the output paths
in declared order, then converts the 128-bit result to bytes big-endian.
`none` models the `expect("invalid FileId")` panic. -/
def hash_build (xxh : List Nat → Nat) (node : BuildNode) (g : BuildGraph) :
    Option BuildHash := do
  let outPaths ← node.outs.mapM g.lookup_path
  let bytes := methodBytes node.command ++ outTag
      ++ outPaths.flatMap (fun p => p ++ [0])
  pure (toBeBytes 16 (xxh bytes % 2 ^ 128))

/-- The order-independent accumulator `Acc` from `src/graph/hash.rs`.
`sum_lo`/`sum_hi` are kept reduced mod `2 ^ 128` (`u128` wrapping sums of
the two little-endian halves of each 256-bit element hash); `xor_lo`/
`xor_hi` are the corresponding xors; `cnt` counts elements. -/
structure Acc where
  sum_lo : Nat
  sum_hi : Nat
  xor_lo : Nat
  xor_hi : Nat
  cnt : Nat
deriving DecidableEq

instance : Inhabited Acc := ⟨⟨0, 0, 0, 0, 0⟩⟩

/-- `Acc::accumulate`: fold one element hash `h = (lo, hi)` into the
accumulator. -/
def Acc.accumulate (a : Acc) (h : Nat × Nat) : Acc :=
  { sum_lo := (a.sum_lo + h.1) % 2 ^ 128
    sum_hi := (a.sum_hi + h.2) % 2 ^ 128
    xor_lo := a.xor_lo ^^^ h.1
    xor_hi := a.xor_hi ^^^ h.2
    cnt := a.cnt + 1 }

/-- The byte stream `Acc::finalize` feeds into the fresh blake3 hasher:
`sum_lo`, `sum_hi`, `xor_lo`, `xor_hi` as 16 little-endian bytes each, then
`cnt` as 8 little-endian bytes (`usize::to_le_bytes`). -/
def Acc.finalizeInput (a : Acc) : List Nat :=
  toLeBytes 16 a.sum_lo ++ toLeBytes 16 a.sum_hi
    ++ toLeBytes 16 a.xor_lo ++ toLeBytes 16 a.xor_hi ++ toLeBytes 8 a.cnt

/-- `Acc::finalize`: the 32-byte (256-bit) blake3 digest of the
finalization bytes, the blake3 compression `b3c` being a parameter. -/
def Acc.finalize (b3c : List Nat → Nat) (a : Acc) : List Nat :=
  toLeBytes 32 (b3c a.finalizeInput % 2 ^ 256)

/-- The input paths a node's input-set hash ranges over, in the order the
source iterates them: the declared `ins`, then for each direct dependency
its declared `outs`. `none` models an `expect` panic on a dangling id. -/
def inputPaths (g : BuildGraph) (build_id : BuildId) : Option (List Path) := do
  let build ← g.lookup_build build_id
  let insPaths ← build.ins.mapM g.lookup_path
  let depOuts ← (g.build_dependencies build_id).mapM (fun dep => do
    let depNode ← g.lookup_build dep
    depNode.outs.mapM g.lookup_path)
  pure (insPaths ++ depOuts.flatten)

/-- `hash_input_set` from `src/graph/hash.rs`: accumulate the blake3 hash
of every input path (declared `ins` plus the declared `outs` of direct
dependencies) into `Acc`, then finalize. -/
def hash_input_set (ph : Path → Nat × Nat) (b3c : List Nat → Nat)
    (build_id : BuildId) (g : BuildGraph) : Option (List Nat) := do
  let paths ← inputPaths g build_id
  pure (Acc.finalize b3c (paths.foldl (fun a p => a.accumulate (ph p)) default))

/-! ## `src/world.rs` — the `World` interface -/

/-- `BuildStatusKind` from `src/exec.rs`. -/
inductive BuildStatusKind where
  | Fresh
  | Started
  | UpToDate
  | Failed
  | Succeeded
  | Skipped
deriving DecidableEq

/-- `BuildStatusKind::is_finished`. -/
def BuildStatusKind.is_finished : BuildStatusKind → Bool
  | .UpToDate | .Failed | .Succeeded | .Skipped => true
  | .Fresh | .Started => false

/-- `BuildStatusKind::is_successful`. -/
def BuildStatusKind.is_successful : BuildStatusKind → Bool
  | .UpToDate | .Succeeded => true
  | _ => false

/-- The `World` trait from `src/world.rs`, as used by `src/exec.rs`: file
existence, modification time, current time, and command execution (the
executor calls `execute` with the user state, the graph and a `BuildId`;
the first two are fixed here, so `execute` is a function of the id). -/
structure World where
  exists_ : Path → Bool
  mtime : Path → Except IoErr Time
  now : Time
  execute : BuildId → Except IoErr BuildStatusKind

/-- `run_build_inner` from `src/world.rs` (the body of
`LocalWorld::execute`). `spawn` models `Command::spawn` + `wait`: it
returns whether the exit status was a success, or the io error that `?`
propagates. A callback's behaviour is the `outcome` stored in the method;
note the source maps a callback's `Ok` to `UpToDate`. -/
def run_build_inner (spawn : Path → List Path → Except IoErr Bool)
    (cmd : BuildMethod) : Except IoErr BuildStatusKind :=
  match cmd with
  | .SubCommand exe args =>
    match spawn exe args with
    | .error e => .error e
    | .ok true => .ok .Succeeded
    | .ok false => .ok .Failed
  | .Callback _name outcome =>
    match outcome with
    | .ok _ => .ok .UpToDate
    | .error _ => .ok .Failed
  | .Phony => .ok .Succeeded

/-! ## `src/exec.rs` — freshness predicate and worker body -/

/-- `NodeInputKind` from `src/exec.rs`. -/
inductive NodeInputKind where
  | UpToDate
  | Outdated
  | Missing (f : FileId)
  | CannotRead (p : Path) (e : IoErr)
deriving DecidableEq

/-- The declared-inputs loop of `stat_node`. The outer `Option` is the
`expect("File should exist")` panic; the inner `some k` is an early
`return k`, the inner `none` falls through to the next phase. -/
def checkIns (g : BuildGraph) (world : World)
    (mtime_should_before : Option Time) :
    List FileId → Option (Option NodeInputKind)
  | [] => some none
  | file :: rest =>
    match g.lookup_path file with
    | none => none
    | some path =>
      if !world.exists_ path then some (some (.Missing file))
      else
        match world.mtime path with
        | .error e => some (some (.CannotRead path e))
        | .ok mtime =>
          match mtime_should_before with
          | none => some (some .Outdated)
          | some w =>
            if w < mtime then some (some .Outdated)
            else checkIns g world mtime_should_before rest

/-- The declared-outputs loop of `stat_node`. -/
def checkOuts (db : DbInner) (g : BuildGraph) (world : World)
    (build_hash : BuildHash) : List FileId → Option (Option NodeInputKind)
  | [] => some none
  | out :: rest =>
    match g.lookup_path out with
    | none => none
    | some path =>
      if !world.exists_ path then some (some .Outdated)
      else
        match world.mtime path with
        | .error e => some (some (.CannotRead path e))
        | .ok mtime =>
          match db.get_file_info path with
          | none => some (some .Outdated)
          | some info =>
            if info.generated_by ≠ build_hash then some (some .Outdated)
            else if mtime > info.last_seen then some (some .Outdated)
            else checkOuts db g world build_hash rest

/-- The additional-inputs loop of `stat_node`. The source tests existence
with `file.exists()` — `std::path::Path::exists` on the ambient
filesystem, modelled by `fsExists` — while the modification time right
next to it goes through `world.mtime`. -/
def checkAdditional (fsExists : Path → Bool) (world : World)
    (last_start : Time) : List Path → Option NodeInputKind
  | [] => none
  | file :: rest =>
    if !fsExists file then some .Outdated
    else
      match world.mtime file with
      | .error e => some (.CannotRead file e)
      | .ok mtime =>
        if mtime > last_start then some .Outdated
        else checkAdditional fsExists world last_start rest

/-- `stat_node` from `src/exec.rs`: decide whether a build node must run.
`fsExists` models the ambient filesystem that the source's bare
`file.exists()` call consults for additional inputs. -/
def stat_node (db : DbInner) (fsExists : Path → Bool) (world : World)
    (g : BuildGraph) (node : BuildNode) (build_hash : BuildHash)
    (input_hash : InputHash) : Option NodeInputKind := do
  let build_info := db.get_build_info build_hash
  let mtime_should_before := build_info.map (·.last_start)
  match ← checkIns g world mtime_should_before node.ins with
  | some k => pure k
  | none =>
    match build_info with
    | none => pure .Outdated
    | some binfo => do
      match ← checkOuts db g world build_hash node.outs with
      | some k => pure k
      | none =>
        if binfo.input_set_digest ≠ input_hash then pure .Outdated
        else
          match checkAdditional fsExists world binfo.last_start
              binfo.additional_inputs with
          | some k => pure k
          | none => pure .UpToDate

/-- The additional-inputs loop of the specification's reference procedure
(§4.5 step 7), which tests existence through the `World` interface. -/
def checkAdditionalSpec (world : World) (last_start : Time) :
    List Path → Option NodeInputKind
  | [] => none
  | file :: rest =>
    if !world.exists_ file then some .Outdated
    else
      match world.mtime file with
      | .error e => some (.CannotRead file e)
      | .ok mtime =>
        if mtime > last_start then some .Outdated
        else checkAdditionalSpec world last_start rest

/-- The specification's reference freshness procedure (§4.5), written from
the spec's words for comparison with `stat_node`: identical decision order,
with the existence of every file — additional inputs included — asked of
the `World` interface. -/
def statNodeSpec (db : DbInner) (world : World) (g : BuildGraph)
    (node : BuildNode) (build_hash : BuildHash) (input_hash : InputHash) :
    Option NodeInputKind := do
  let build_info := db.get_build_info build_hash
  let mtime_should_before := build_info.map (·.last_start)
  match ← checkIns g world mtime_should_before node.ins with
  | some k => pure k
  | none =>
    match build_info with
    | none => pure .Outdated
    | some binfo => do
      match ← checkOuts db g world build_hash node.outs with
      | some k => pure k
      | none =>
        if binfo.input_set_digest ≠ input_hash then pure .Outdated
        else
          match checkAdditionalSpec world binfo.last_start
              binfo.additional_inputs with
          | some k => pure k
          | none => pure .UpToDate

/-- The per-output write of `write_build`: look the output path up and
store its `FileInfo` stamped with the transaction's single `now`. -/
def writeOut (g : BuildGraph) (now : Time) (build_hash : BuildHash)
    (d : DbInner) (out : FileId) : Option DbInner := do
  let path ← g.lookup_path out
  pure (d.set_file_info path { last_seen := now, generated_by := build_hash })

/-- `write_build` from `src/exec.rs`: on success, one write transaction
stores the build record and one file record per declared output, all
stamped with a single `world.now()` value, then commits. -/
def write_build (db : DbInner) (g : BuildGraph) (world : World)
    (build : BuildNode) (build_hash : BuildHash) (input_hash : InputHash) :
    Option DbInner := do
  let now := world.now
  let build_info : BuildInfo :=
    { last_start := now
      last_end := none
      input_set_digest := input_hash
      additional_inputs := [] }
  let db := db.set_build_info build_hash build_info
  build.outs.foldlM (writeOut g now build_hash) db

/-- `invalidate_build` from `src/exec.rs`: drop the build record and every
declared output's file record, then commit. -/
def invalidate_build (db : DbInner) (g : BuildGraph) (build : BuildNode)
    (build_hash : BuildHash) : Option DbInner := do
  let db := db.invalidate_build build_hash
  build.outs.foldlM (fun d out => do
    let path ← g.lookup_path out
    pure (d.invalidate_file path)) db

/-- `run_build` from `src/exec.rs` (the worker body): hash, stat, execute,
and commit or invalidate the cache entry. Returns the updated database
contents and the result sent back on the completion channel; `none` models
a panic. -/
def run_build (xxh : List Nat → Nat) (ph : Path → Nat × Nat)
    (b3c : List Nat → Nat) (fsExists : Path → Bool) (world : World)
    (db : DbInner) (g : BuildGraph) (id : BuildId) :
    Option (DbInner × Except IoErr BuildStatusKind) := do
  let build ← g.lookup_build id
  let build_id ← hash_build xxh build g
  let input_hash ← hash_input_set ph b3c id g
  let node_stat ← stat_node db fsExists world g build build_id input_hash
  match node_stat with
  | .UpToDate => pure (db, .ok .UpToDate)
  | .CannotRead path e =>
    pure (db, .error (e ++ String.append " cannot read " (toString path)))
  | .Missing _ => pure (db, .ok .Failed)
  | .Outdated =>
    let build_result := world.execute id
    match build_result with
    | .ok .Succeeded => do
      let db' ← write_build db g world build build_id input_hash
      pure (db', .ok .Succeeded)
    | .ok .UpToDate => do
      let db' ← write_build db g world build build_id input_hash
      pure (db', .ok .UpToDate)
    | .ok .Failed => do
      let db' ← invalidate_build db g build build_id
      pure (db', .ok .Failed)
    | .error e => do
      let db' ← invalidate_build db g build build_id
      pure (db', .error e)
    | .ok _ => none

/-! ## `src/exec.rs` — the executor state machine -/

/-- `BuildStatus` from `src/exec.rs`. -/
structure BuildStatus where
  kind : BuildStatusKind
  pending_inputs : Nat
deriving DecidableEq

/-- The executor's mutable bookkeeping (`Executor` fields minus the shared
handles): the `pending` `IndexSet`, the per-node status map, and the
counters. -/
structure ExecSt where
  pending : List BuildId
  builds : List (BuildId × BuildStatus)
  running : Nat
  finished : Nat
  failed : Nat
  build_started : Bool
deriving DecidableEq

/-- Status lookup (`self.builds.get`). -/
def ExecSt.lookup (s : ExecSt) (b : BuildId) : Option BuildStatus :=
  getA s.builds b

/-- `IndexSet::insert`: append if absent. -/
def insertPending (l : List BuildId) (b : BuildId) : List BuildId :=
  if b ∈ l then l else l ++ [b]

/-- The freshly constructed executor state. -/
def ExecSt.init : ExecSt := ⟨[], [], 0, 0, 0, false⟩

/-- `want_internal` from `src/exec.rs`: DFS over dependencies with an
explicit stack; every newly seen node is tracked as `Fresh` with
`pending_inputs` equal to its number of direct dependencies, and leaves
enter `pending`. The loop is fuelled; the second component returns the
remaining stack (`[]` once the loop has run to completion). -/
def wantLoop (g : BuildGraph) : Nat → List BuildId → ExecSt →
    ExecSt × List BuildId
  | 0, stack, s => (s, stack)
  | fuel + 1, stack, s =>
    match stack with
    | [] => (s, [])
    | build :: rest =>
      if (s.lookup build).isSome then wantLoop g fuel rest s
      else
        let deps := g.build_dependencies build
        let s1 := if deps.length = 0 then
            { s with pending := insertPending s.pending build }
          else s
        let s2 := { s1 with
          builds := setA s1.builds build ⟨.Fresh, deps.length⟩ }
        wantLoop g fuel (deps.reverse ++ rest) s2

/-- `start_build` from `src/exec.rs`, together with the `pending.pop()` of
the run loop: take the most recently inserted pending node, mark it
`Started`, bump `running`, and dispatch it to the pool. `none` models both
an empty pending set and the `expect("Build should exist")` panic. -/
def startBuild (s : ExecSt) : Option (BuildId × ExecSt) := do
  let node ← s.pending.getLast?
  let st ← s.lookup node
  pure (node,
    { s with
      pending := s.pending.dropLast
      builds := setA s.builds node { st with kind := .Started }
      running := s.running + 1 })

/-- The per-dependent update of `build_finished`'s success arm: untracked
dependents are ignored, an already successful dependent is the
double-finish panic (`none`), a failed one is left alone, and otherwise
`pending_inputs` is decremented, the dependent entering `pending` at
zero. -/
def succUpdate (s : ExecSt) (node : BuildId) : Option ExecSt :=
  match s.lookup node with
  | none => some s
  | some dep =>
    if dep.kind.is_finished then
      if dep.kind.is_successful then none else some s
    else
      if dep.pending_inputs - 1 = 0 then
        some { s with
          builds := setA s.builds node
            { dep with pending_inputs := dep.pending_inputs - 1 }
          pending := insertPending s.pending node }
      else
        some { s with
          builds := setA s.builds node
            { dep with pending_inputs := dep.pending_inputs - 1 } }

/-- The per-node marking of `build_finished`'s failure arm: every tracked,
not yet finished node visited by the walk becomes `Skipped`, with
`finished` and `failed` both incremented. -/
def skipMark (s : ExecSt) (node : BuildId) : ExecSt :=
  match s.lookup node with
  | none => s
  | some dep =>
    if dep.kind.is_finished then s
    else
      { s with
        builds := setA s.builds node { dep with kind := .Skipped }
        finished := s.finished + 1
        failed := s.failed + 1 }

/-- The node set visited by `petgraph::visit::Dfs::new(&graph, id)` with
the start skipped: `Dfs` follows OUTGOING edges, so this is the transitive
dependency closure of `id`, not its consumers. -/
def dfsMarked (g : BuildGraph) (id : BuildId) : List BuildId :=
  (closureBy (succsE g.edges) (g.edges.length + 1) [id]).filter
    (fun n => decide (n ≠ id))

/-- `build_finished` from `src/exec.rs`: bookkeeping for one completion
message. `none` models the panics (non-finished result, unknown build,
double finish, and a `Fresh`/`Started` result). -/
def buildFinished (g : BuildGraph) (s : ExecSt) (id : BuildId)
    (stat : BuildStatusKind) : Option ExecSt :=
  if !stat.is_finished then none
  else
    match getA s.builds id with
    | none => none
    | some build =>
      if build.kind.is_finished then none
      else
        let s1 := { s with
          running := s.running - 1
          finished := s.finished + 1
          builds := setA s.builds id { build with kind := stat } }
        match stat with
        | .Fresh => none
        | .Started => none
        | .Succeeded | .UpToDate =>
          (g.build_dependents id).foldlM succUpdate s1
        | .Failed | .Skipped =>
          some ((dfsMarked g id).foldl skipMark
            { s1 with failed := s1.failed + 1 })

/-- Modelled from the spec: the consumer closure the completion handler is
specified to mark on failure — the walk over INCOMING edges (the
transitive dependents of the completed node), start excluded. -/
def dfsMarkedSpec (g : BuildGraph) (id : BuildId) : List BuildId :=
  (closureBy (fun n => g.build_dependents n) (g.edges.length + 1) [id]).filter
    (fun n => decide (n ≠ id))

/-- Modelled from the spec: `build_finished` as §4.6 "Completion handling"
describes it, identical to the source except that the failure arm walks
the transitive CONSUMER closure (incoming edges). -/
def buildFinishedSpec (g : BuildGraph) (s : ExecSt) (id : BuildId)
    (stat : BuildStatusKind) : Option ExecSt :=
  if !stat.is_finished then none
  else
    match getA s.builds id with
    | none => none
    | some build =>
      if build.kind.is_finished then none
      else
        let s1 := { s with
          running := s.running - 1
          finished := s.finished + 1
          builds := setA s.builds id { build with kind := stat } }
        match stat with
        | .Fresh => none
        | .Started => none
        | .Succeeded | .UpToDate =>
          (g.build_dependents id).foldlM succUpdate s1
        | .Failed | .Skipped =>
          some ((dfsMarkedSpec g id).foldl skipMark
            { s1 with failed := s1.failed + 1 })

/-- One transition of the executor. `want` and the `run()` entry are the
caller-driven transitions; `start` is the run loop draining `pending`;
`finish` is the controller receiving one completion message. A message
carries the id of a dispatched (hence `Started`) node and one of the three
results a worker can send. -/
inductive Step (g : BuildGraph) : ExecSt → ExecSt → Prop
  | want (ids : List BuildId) (fuel : Nat) (s s' : ExecSt) :
      s.build_started = false →
      wantLoop g fuel ids s = (s', []) →
      Step g s s'
  | runStart (s : ExecSt) :
      s.build_started = false →
      Step g s { s with build_started := true }
  | start (s : ExecSt) (b : BuildId) (s' : ExecSt) :
      s.build_started = true →
      startBuild s = some (b, s') →
      Step g s s'
  | finish (s : ExecSt) (id : BuildId) (stat : BuildStatusKind) (s' : ExecSt) :
      s.build_started = true →
      (s.lookup id).map (·.kind) = some .Started →
      (stat = .UpToDate ∨ stat = .Succeeded ∨ stat = .Failed) →
      buildFinished g s id stat = some s' →
      Step g s s'

/-- The states an executor run can be in. -/
inductive Reachable (g : BuildGraph) : ExecSt → Prop
  | init : Reachable g ExecSt.init
  | step {s s' : ExecSt} : Reachable g s → Step g s s' → Reachable g s'

/-! ## Claim C4 — `LocalWorld::execute` on callbacks and phonies -/

/-- C4: in `run_build_inner`, a callback handler returning `Ok` yields
`Ok(UpToDate)`, NOT `Succeeded` as the claim states (this is the value
`run_build` then logs as unexpected); a handler error yields `Ok(Failed)`
and never an io error; `Phony` yields `Succeeded`. This theorem evaluates
the code at the claim's cases and exhibits the divergence. -/
theorem c4_callback_ok_gives_uptodate :
    (∀ (spawn : Path → List Path → Except IoErr Bool) (name : Path),
        run_build_inner spawn (.Callback name (.ok ())) = .ok .UpToDate)
    ∧ BuildStatusKind.UpToDate ≠ BuildStatusKind.Succeeded
    ∧ (∀ (spawn : Path → List Path → Except IoErr Bool) (name : Path)
        (e : IoErr),
        run_build_inner spawn (.Callback name (.error e)) = .ok .Failed)
    ∧ (∀ (spawn : Path → List Path → Except IoErr Bool),
        run_build_inner spawn .Phony = .ok .Succeeded) :=
  ⟨fun _ _ => rfl, by decide, fun _ _ _ => rfl, fun _ => rfl⟩

/-! ## Claim C8 — width and endianness of the input-set digest -/

theorem toLeBytes_length (n : Nat) : ∀ v : Nat, (toLeBytes n v).length = n := by
  induction n with
  | zero => intro v; rfl
  | succ n ih => intro v; simp [toLeBytes, ih]

/-- Modelled from the spec: the finalization byte stream with the integer
fields (sum, xor, count) encoded big-endian, as §4.2 specifies for
portability. -/
def finalizeInputBE (a : Acc) : List Nat :=
  toBeBytes 16 a.sum_lo ++ toBeBytes 16 a.sum_hi
    ++ toBeBytes 16 a.xor_lo ++ toBeBytes 16 a.xor_hi ++ toBeBytes 8 a.cnt

/-- C8: the digest `hash_input_set` produces is 32 bytes (256 bits), not
the 128 bits of `InputHash([u8; 16])` from `src/db.rs` that the claim
states, and the integer fields are fed to the hasher little-endian
(`to_le_bytes`), not big-endian: on the accumulator with `sum_lo = 1` the
byte stream differs from its big-endian rendering. -/
theorem c8_digest_width_and_endianness :
    (∀ (b3c : List Nat → Nat) (a : Acc), (Acc.finalize b3c a).length = 32)
    ∧ (∀ (b3c : List Nat → Nat) (a : Acc),
        (Acc.finalize b3c a).length ≠ InputHashNumBytes)
    ∧ Acc.finalizeInput ⟨1, 0, 0, 0, 0⟩ ≠ finalizeInputBE ⟨1, 0, 0, 0, 0⟩ := by
  refine ⟨fun b3c a => by simp [Acc.finalize, toLeBytes_length],
    fun b3c a => ?_, by decide⟩
  rw [show (Acc.finalize b3c a).length = 32 from by
    simp [Acc.finalize, toLeBytes_length]]
  decide

/-! ## Claim C6 — dropping an uncommitted in-memory writer -/

/-- One `DbWriter` call of the in-memory backend. -/
inductive WriteOp where
  | setBuildInfo (h : BuildHash) (i : BuildInfo)
  | invalidateBuild (h : BuildHash)
  | setFileInfo (p : Path) (i : FileInfo)
  | invalidateFile (p : Path)

/-- Apply one writer call: for `in_memory::Writer` every call mutates the
shared `DbInner` through the `RwLock` write guard right away. -/
def applyWriteOp (d : DbInner) : WriteOp → DbInner
  | .setBuildInfo h i => d.set_build_info h i
  | .invalidateBuild h => d.invalidate_build h
  | .setFileInfo p i => d.set_file_info p i
  | .invalidateFile p => d.invalidate_file p

/-- `Writer::commit` of the in-memory backend: explicitly a no-op. -/
def writerCommit (d : DbInner) : DbInner := d

/-- Dropping the in-memory writer without `commit`: the `RwLockWriteGuard`
is released; nothing is rolled back. -/
def writerDrop (d : DbInner) : DbInner := d

/-- C6 counterexample: after a write transaction on the empty in-memory
database performs one `set_file_info` and is dropped WITHOUT commit, a
subsequent read observes the new record — not the database contents from
before the transaction, contradicting the claim. -/
theorem c6_counterexample_drop_keeps_write :
    (writerDrop (applyWriteOp DbInner.empty
        (.setFileInfo [7] ⟨3, [1]⟩))).get_file_info [7] = some ⟨3, [1]⟩
    ∧ DbInner.empty.get_file_info [7] = none := by
  exact ⟨rfl, rfl⟩

/-- C6 amended: for the in-memory backend every writer call takes effect
on the shared state immediately; `commit` is a no-op, so dropping an
uncommitted writer observes exactly the same database as committing it,
and subsequent reads see the mutations. -/
theorem c6_in_memory_write_through :
    (∀ (d : DbInner) (ops : List WriteOp),
        writerDrop (ops.foldl applyWriteOp d) = ops.foldl applyWriteOp d)
    ∧ (∀ (d : DbInner) (ops : List WriteOp),
        writerDrop (ops.foldl applyWriteOp d)
          = writerCommit (ops.foldl applyWriteOp d))
    ∧ (∀ (d : DbInner) (p : Path) (i : FileInfo),
        (writerDrop (applyWriteOp d (.setFileInfo p i))).get_file_info p
          = some i)
    ∧ (∀ (d : DbInner) (h : BuildHash) (i : BuildInfo),
        (writerDrop (applyWriteOp d (.setBuildInfo h i))).get_build_info h
          = some i) := by
  refine ⟨fun _ _ => rfl, fun _ _ => rfl, fun d p i => ?_, fun d h i => ?_⟩
  · simp [writerDrop, applyWriteOp, DbInner.set_file_info,
      DbInner.get_file_info, getA_setA]
  · simp [writerDrop, applyWriteOp, DbInner.set_build_info,
      DbInner.get_build_info, getA_setA]

/-! ## Claim C9 — unknown ids in `add_build_dep` and `want` -/

/-- C9 counterexample: on a fresh builder with no builds added, ids `0`
and `1` were never returned by `add_build`, yet `add_build_dep 0 1`
records the edge instead of failing (there is no `UnknownId` in
`BuildError` at all). -/
theorem c9_counterexample_edge_recorded :
    (GraphBuilder.new.add_build_dep 0 1).graph.edges = [(0, 1)] := by
  decide

theorem wantLoop_lookup_mono (g : BuildGraph) (fuel : Nat) :
    ∀ (stack : List BuildId) (s : ExecSt) (x : BuildId),
      (s.lookup x).isSome = true →
      ((wantLoop g fuel stack s).1.lookup x).isSome = true := by
  induction fuel with
  | zero => intro stack s x h; exact h
  | succ n ih =>
    intro stack s x h
    match stack with
    | [] => exact h
    | b :: rest =>
      by_cases hb : (s.lookup b).isSome = true
      · simpa [wantLoop, hb] using ih rest s x h
      · have hbx : b ≠ x := by
          intro e
          rw [e] at hb
          exact hb h
        simp only [wantLoop, hb, if_false, Bool.false_eq_true]
        apply ih
        simp only [ExecSt.lookup] at h ⊢
        simp only [getA_setA, if_neg hbx]
        split <;> exact h

/-- C9 amended: neither the builder's edge operation nor `want` validates
ids. `add_build_dep` unconditionally records the edge (`DiGraphMap`
inserts missing endpoints implicitly), and `want` tracks any requested id
without returning an error — the only builder error is `ContainsCycle`. -/
theorem c9_no_unknown_id_validation :
    (∀ (gb : GraphBuilder) (a b : BuildId),
        (a, b) ∈ (gb.add_build_dep a b).graph.edges)
    ∧ (∀ (g : BuildGraph) (id : BuildId) (fuel : Nat),
        ((wantLoop g (fuel + 1) [id] ExecSt.init).1.lookup id).isSome = true)
    ∧ (∀ e : BuildError, e = .ContainsCycle) := by
  refine ⟨fun gb a b => ?_, fun g id fuel => ?_, fun e => by cases e; rfl⟩
  · unfold GraphBuilder.add_build_dep
    by_cases h : (a, b) ∈ gb.graph.edges
    · simp [h]
    · simp [h]
  · have hinit : (ExecSt.init.lookup id).isSome = false := rfl
    simp only [wantLoop, ExecSt.lookup] at hinit ⊢
    rw [hinit]
    simp only [Bool.false_eq_true, if_false]
    apply wantLoop_lookup_mono
    simp [ExecSt.lookup, getA_setA]

/-! ## Claim C10 — only acyclicity is validated; dangling ids panic -/

/-- A node whose `ins` and `outs` name `FileId 5` although no file was
ever added. -/
def c10node : BuildNode := { command := .Phony, ins := [5], outs := [5] }

/-- A builder holding only `c10node`; its file table is empty, so the
node's `FileId 5` dangles. -/
def c10builder : GraphBuilder := (GraphBuilder.new.add_build c10node).1

/-- C10: `GraphBuilder::build` performs exactly the acyclicity check and
nothing else, so the graph with a dangling `FileId` is accepted; on it,
`hash_build`, `hash_input_set` and `stat_node` all hit the
`expect`/panic (`none`) on the path lookup instead of returning an
error — for every hash primitive, database, world and hash argument. -/
theorem c10_build_validates_only_acyclicity :
    (∀ gb : GraphBuilder,
        gb.build = if isCyclicDirected gb.graph.edges then
          Except.error BuildError.ContainsCycle else Except.ok gb.graph)
    ∧ c10builder.build = Except.ok c10builder.graph
    ∧ (∀ xxh : List Nat → Nat, hash_build xxh c10node c10builder.graph = none)
    ∧ (∀ (ph : Path → Nat × Nat) (b3c : List Nat → Nat),
        hash_input_set ph b3c 0 c10builder.graph = none)
    ∧ (∀ (db : DbInner) (fsE : Path → Bool) (w : World)
        (bh : BuildHash) (ih' : InputHash),
        stat_node db fsE w c10builder.graph c10node bh ih' = none) :=
  ⟨fun _ => rfl, rfl, fun _ => rfl, fun _ _ => rfl, fun _ _ _ _ _ => rfl⟩

/-! ## Claim C1 — `stat_node` versus the reference procedure -/

/-- A build record whose `additional_inputs` hold one path, `[113]`. -/
def c1binfo : BuildInfo :=
  { last_start := 10, last_end := none, input_set_digest := []
    additional_inputs := [[113]] }

/-- A database holding `c1binfo` under the hash `[1]`. -/
def c1db : DbInner := { build_info := [([1], c1binfo)], file_info := [] }

/-- A world in which every path exists with modification time 5 (before
the record's `last_start` of 10). -/
def c1world : World :=
  { exists_ := fun _ => true, mtime := fun _ => .ok 5, now := 0
    execute := fun _ => .ok .Succeeded }

/-- A node with no declared inputs or outputs. -/
def c1node : BuildNode := { command := .Phony, ins := [], outs := [] }

/-- The one-node graph for the C1 scenario. -/
def c1g : BuildGraph := { nodes := [c1node], files := [], edges := [] }

/-- C1: `stat_node` does NOT equal the claim's reference procedure. For
additional inputs the source tests existence with a bare `file.exists()`
on the ambient filesystem instead of going through the `World` interface
(`src/exec.rs` line 570), although `src/world.rs` documents that all file
operations are directed through the trait and the adjacent mtime call uses
`world.mtime`. On a record whose additional input exists for the `World`
(mtime 5 ≤ last_start 10) but is absent from the ambient filesystem, the
code returns `Outdated` while the reference procedure returns
`UpToDate`. -/
theorem c1_stat_node_additional_input_exists_divergence :
    stat_node c1db (fun _ => false) c1world c1g c1node [1] []
      = some .Outdated
    ∧ statNodeSpec c1db c1world c1g c1node [1] [] = some .UpToDate :=
  ⟨rfl, rfl⟩

/-! ## Claim C3 — failure propagation walks the wrong edge direction -/

/-- Two-node graph: node 1 is the consumer of node 0 (edge `(1, 0)` points
from the dependent to the dependency, as `add_build_dep` records it). -/
def c3g : BuildGraph :=
  { nodes := [{ command := .Phony, ins := [], outs := [] },
      { command := .Phony, ins := [], outs := [] }]
    files := [], edges := [(1, 0)] }

/-- Executor state after `want [1]`: node 1 tracked with one pending
input, node 0 a pending leaf. -/
def c3sA : ExecSt :=
  ⟨[0], [(0, ⟨.Fresh, 0⟩), (1, ⟨.Fresh, 1⟩)], 0, 0, 0, false⟩

/-- The same state once `run()` has set `build_started`. -/
def c3sB : ExecSt :=
  ⟨[0], [(0, ⟨.Fresh, 0⟩), (1, ⟨.Fresh, 1⟩)], 0, 0, 0, true⟩

/-- State after the run loop dispatches node 0. -/
def c3sC : ExecSt :=
  ⟨[], [(0, ⟨.Started, 0⟩), (1, ⟨.Fresh, 1⟩)], 1, 0, 0, true⟩

/-- What the source's `build_finished` produces when node 0 `Failed`: the
consumer (node 1) is untouched. -/
def c3sD : ExecSt :=
  ⟨[], [(0, ⟨.Failed, 0⟩), (1, ⟨.Fresh, 1⟩)], 0, 1, 1, true⟩

/-- What the specified completion handling produces: the consumer is
`Skipped` and counted. -/
def c3sE : ExecSt :=
  ⟨[], [(1, ⟨.Skipped, 1⟩), (0, ⟨.Failed, 0⟩)], 0, 2, 2, true⟩

/-- C3: the failure arm of `build_finished` walks
`petgraph::visit::Dfs::new(&graph, id)`, which follows OUTGOING edges —
the transitive dependencies of the failed node — not the incoming-edge
consumer closure that the claim (and the executor's own doc comment)
describe. When node 0 fails, the code leaves its tracked consumer 1
`Fresh` with `finished = failed = 1`, where the specified handler would
mark it `Skipped` with `finished = failed = 2`. The states are connected
to a real run by the displayed `wantLoop`/`startBuild` equations. -/
theorem c3_failure_walks_dependencies_not_consumers :
    wantLoop c3g 3 [1] ExecSt.init = (c3sA, [])
    ∧ c3sB = { c3sA with build_started := true }
    ∧ startBuild c3sB = some (0, c3sC)
    ∧ buildFinished c3g c3sC 0 .Failed = some c3sD
    ∧ c3sD.lookup 1 = some ⟨.Fresh, 1⟩
    ∧ c3sD.finished = 1 ∧ c3sD.failed = 1
    ∧ buildFinishedSpec c3g c3sC 0 .Failed = some c3sE
    ∧ c3sE.lookup 1 = some ⟨.Skipped, 1⟩
    ∧ c3sE.finished = 2 ∧ c3sE.failed = 2 := by
  refine ⟨by decide, by decide, by decide, by decide, by decide, rfl, rfl,
    by decide, by decide, rfl, rfl⟩

/-! ## Claim C7 — order-independence of `hash_input_set` -/

theorem Acc.accumulate_comm (a : Acc) (x y : Nat × Nat) :
    (a.accumulate x).accumulate y = (a.accumulate y).accumulate x := by
  unfold Acc.accumulate
  simp only [Acc.mk.injEq]
  refine ⟨?_, ?_, ?_, ?_, trivial⟩
  · rw [Nat.mod_add_mod, Nat.mod_add_mod]
    exact congrArg (· % 2 ^ 128) (Nat.add_right_comm _ _ _)
  · rw [Nat.mod_add_mod, Nat.mod_add_mod]
    exact congrArg (· % 2 ^ 128) (Nat.add_right_comm _ _ _)
  · rw [Nat.xor_assoc, Nat.xor_assoc, Nat.xor_comm x.1 y.1]
  · rw [Nat.xor_assoc, Nat.xor_assoc, Nat.xor_comm x.2 y.2]

theorem foldl_accumulate_perm (ph : Path → Nat × Nat) {l1 l2 : List Path}
    (h : l1.Perm l2) :
    ∀ a : Acc, l1.foldl (fun a p => a.accumulate (ph p)) a
      = l2.foldl (fun a p => a.accumulate (ph p)) a := by
  induction h with
  | nil => intro a; rfl
  | cons x _h ih => intro a; simp only [List.foldl_cons]; exact ih _
  | swap x y l =>
    intro a
    simp only [List.foldl_cons]
    rw [Acc.accumulate_comm]
  | trans _h1 _h2 ih1 ih2 => intro a; exact (ih1 a).trans (ih2 a)

/-- C7: `hash_input_set` is invariant under permutation of the multiset of
input paths a node presents — the declared `ins` paths followed by the
declared `outs` paths of direct dependencies. Any two graphs and nodes
(regardless of insertion order or id assignment) whose input path lists
are permutations of each other receive the same digest, for every
instantiation of the hash primitives. -/
theorem c7_hash_input_set_perm_invariant (ph : Path → Nat × Nat)
    (b3c : List Nat → Nat) (g1 g2 : BuildGraph) (b1 b2 : BuildId)
    (l1 l2 : List Path) (h1 : inputPaths g1 b1 = some l1)
    (h2 : inputPaths g2 b2 = some l2) (hperm : l1.Perm l2) :
    hash_input_set ph b3c b1 g1 = hash_input_set ph b3c b2 g2 := by
  simp [hash_input_set, h1, h2, foldl_accumulate_perm ph hperm]

/-- One-node graph declaring inputs `[10]` then `[20]`. -/
def c7g1 : BuildGraph :=
  { nodes := [{ command := .Phony, ins := [0, 1], outs := [] }]
    files := [[10], [20]], edges := [] }

/-- Ids assigned in the opposite insertion order: the same two input
paths, presented as `[20]` then `[10]`. -/
def c7g2 : BuildGraph :=
  { nodes := [{ command := .Phony, ins := [0, 1], outs := [] }]
    files := [[20], [10]], edges := [] }

/-- C7 witness: the two concrete graphs present the same input multiset in
different orders and hash identically. -/
theorem c7_witness :
    hash_input_set (fun p => (p.headD 0, 0)) (fun l => l.length) 0 c7g1
      = hash_input_set (fun p => (p.headD 0, 0)) (fun l => l.length) 0 c7g2 :=
  c7_hash_input_set_perm_invariant (fun p => (p.headD 0, 0))
    (fun l => l.length) c7g1 c7g2 0 0 [[10], [20]] [[20], [10]] rfl rfl
    (List.Perm.swap [20] [10] [])

/-! ## Claim C5 — cache contents after a successful run -/

theorem writeOut_foldl_build_info (g : BuildGraph) (now : Time)
    (bh : BuildHash) :
    ∀ (l : List FileId) (d d' : DbInner),
      l.foldlM (writeOut g now bh) d = some d' →
      d'.build_info = d.build_info := by
  intro l
  induction l with
  | nil =>
    intro d d' h
    cases h
    rfl
  | cons out rest ih =>
    intro d d' h
    simp only [List.foldlM_cons, writeOut] at h
    match hp : g.lookup_path out with
    | none => rw [hp] at h; exact absurd h (by simp)
    | some path =>
      rw [hp] at h
      simp only [Option.bind_eq_bind, Option.some_bind, Option.pure_def] at h
      rw [ih _ _ h]
      rfl

theorem writeOut_foldl_file_info (g : BuildGraph) (now : Time)
    (bh : BuildHash) :
    ∀ (l : List FileId) (d d' : DbInner),
      l.foldlM (writeOut g now bh) d = some d' →
      ∀ q : Path, d'.get_file_info q = d.get_file_info q
        ∨ d'.get_file_info q = some ⟨now, bh⟩ := by
  intro l
  induction l with
  | nil =>
    intro d d' h q
    cases h
    exact Or.inl rfl
  | cons out rest ih =>
    intro d d' h q
    simp only [List.foldlM_cons, writeOut] at h
    match hp : g.lookup_path out with
    | none => rw [hp] at h; exact absurd h (by simp)
    | some path =>
      rw [hp] at h
      simp only [Option.bind_eq_bind, Option.some_bind, Option.pure_def] at h
      rcases ih _ _ h q with h1 | h1
      · rw [h1]
        simp only [DbInner.set_file_info, DbInner.get_file_info, getA_setA]
        by_cases hq : path = q
        · exact Or.inr (by simp [hq])
        · exact Or.inl (by simp [hq])
      · exact Or.inr h1

theorem writeOut_foldl_covers (g : BuildGraph) (now : Time)
    (bh : BuildHash) :
    ∀ (l : List FileId) (d d' : DbInner),
      l.foldlM (writeOut g now bh) d = some d' →
      ∀ out ∈ l, ∃ p, g.lookup_path out = some p
        ∧ d'.get_file_info p = some ⟨now, bh⟩ := by
  intro l
  induction l with
  | nil => intro d d' _h out hmem; cases hmem
  | cons o rest ih =>
    intro d d' h out hmem
    simp only [List.foldlM_cons, writeOut] at h
    match hp : g.lookup_path o with
    | none => rw [hp] at h; exact absurd h (by simp)
    | some path =>
      rw [hp] at h
      simp only [Option.bind_eq_bind, Option.some_bind, Option.pure_def] at h
      rcases List.mem_cons.mp hmem with he | hr
      · subst he
        refine ⟨path, hp, ?_⟩
        rcases writeOut_foldl_file_info g now bh rest _ _ h path with h1 | h1
        · rw [h1]
          simp [DbInner.set_file_info, DbInner.get_file_info, getA_setA]
        · exact h1
      · exact ih _ _ h out hr

/-- C5: if `stat_node` said `Outdated` and `world.execute` returned
`Succeeded` (or the tolerated `UpToDate`), then the database `run_build`
commits holds, under the node's `hash_build` value, a build record with
`last_start = world.now()`, `last_end = None`, `input_set_digest` equal to
the computed input hash and empty `additional_inputs`, and for every
declared output a file record generated by that hash whose `last_seen` is
the same single `now` as the record's `last_start`. -/
theorem c5_successful_run_commits_records (xxh : List Nat → Nat)
    (ph : Path → Nat × Nat) (b3c : List Nat → Nat) (fsE : Path → Bool)
    (world : World) (db : DbInner) (g : BuildGraph) (id : BuildId)
    (build : BuildNode) (bh : BuildHash) (ihash : InputHash) (db' : DbInner)
    (r : Except IoErr BuildStatusKind)
    (hb : g.lookup_build id = some build)
    (hh : hash_build xxh build g = some bh)
    (hi : hash_input_set ph b3c id g = some ihash)
    (hs : stat_node db fsE world g build bh ihash = some .Outdated)
    (hex : world.execute id = .ok .Succeeded ∨ world.execute id = .ok .UpToDate)
    (hrun : run_build xxh ph b3c fsE world db g id = some (db', r)) :
    db'.get_build_info bh
      = some ⟨world.now, none, ihash, []⟩
    ∧ ∀ out ∈ build.outs, ∃ p, g.lookup_path out = some p
        ∧ db'.get_file_info p = some ⟨world.now, bh⟩ := by
  have hw : write_build db g world build bh ihash = some db' := by
    unfold run_build at hrun
    rw [hb] at hrun
    simp only [Option.bind_eq_bind, Option.some_bind] at hrun
    rw [hh] at hrun
    simp only [Option.some_bind] at hrun
    rw [hi] at hrun
    simp only [Option.some_bind] at hrun
    rw [hs] at hrun
    simp only [Option.some_bind] at hrun
    rcases hex with hex | hex <;>
      · rw [hex] at hrun
        match hv : write_build db g world build bh ihash with
        | none => rw [hv] at hrun; exact absurd hrun (by simp)
        | some dbv =>
          rw [hv] at hrun
          simp only [Option.some_bind, Option.pure_def, Option.some.injEq,
            Prod.mk.injEq] at hrun
          rw [← hrun.1]
  unfold write_build at hw
  constructor
  · have hbi := writeOut_foldl_build_info g world.now bh build.outs _ _ hw
    rw [DbInner.get_build_info, hbi]
    simp [DbInner.set_build_info, getA_setA]
  · exact writeOut_foldl_covers g world.now bh build.outs _ _ hw

/-- One-node graph producing the single file `[112]`. -/
def c5g : BuildGraph :=
  { nodes := [{ command := .Phony, ins := [], outs := [0] }]
    files := [[112]], edges := [] }

/-- A world whose clock reads 7 and whose execution succeeds. -/
def c5world : World :=
  { exists_ := fun _ => true, mtime := fun _ => .ok 0, now := 7
    execute := fun _ => .ok .Succeeded }

/-- The `hash_build` value of the C5 node under the constant-zero hash. -/
def c5bh : BuildHash := toBeBytes 16 0

/-- The `hash_input_set` value of the C5 node under the constant-zero
primitives. -/
def c5ih : InputHash := toLeBytes 32 0

/-- The database committed by the C5 run. -/
def c5db' : DbInner :=
  ⟨[(c5bh, ⟨7, none, c5ih, []⟩)], [([112], ⟨7, c5bh⟩)]⟩

/-! ## Claim C2 — dependency ordering of dispatch

The claim is settled against the step relation `Step`/`Reachable` above by
an inductive invariant `Inv` over everything the controller tracks. -/

/-- Whether the executor currently sees `d` as successfully finished
(`UpToDate` or `Succeeded`). -/
def depSuccB (s : ExecSt) (d : BuildId) : Bool :=
  match s.lookup d with
  | some st => st.kind.is_successful
  | none => false

theorem mem_dependencies_iff (g : BuildGraph) (b d : BuildId) :
    d ∈ g.build_dependencies b ↔ (b, d) ∈ g.edges := by
  unfold BuildGraph.build_dependencies
  constructor
  · intro h
    rcases List.mem_map.mp h with ⟨e, he, hmap⟩
    rcases List.mem_filter.mp he with ⟨hmem, hfst⟩
    have h1 : e.1 = b := by simpa using hfst
    have h2 : e = (b, d) := Prod.ext h1 hmap
    rwa [h2] at hmem
  · intro h
    apply List.mem_map.mpr
    exact ⟨(b, d), List.mem_filter.mpr ⟨h, by simp⟩, rfl⟩

theorem mem_dependents_iff (g : BuildGraph) (b d : BuildId) :
    b ∈ g.build_dependents d ↔ (b, d) ∈ g.edges := by
  unfold BuildGraph.build_dependents
  constructor
  · intro h
    rcases List.mem_map.mp h with ⟨e, he, hmap⟩
    rcases List.mem_filter.mp he with ⟨hmem, hsnd⟩
    have h1 : e.2 = d := by simpa using hsnd
    have h2 : e = (b, d) := Prod.ext hmap h1
    rwa [h2] at hmem
  · intro h
    apply List.mem_map.mpr
    exact ⟨(b, d), List.mem_filter.mpr ⟨h, by simp⟩, rfl⟩

theorem count_dependents_eq (g : BuildGraph) (id b : BuildId) :
    (g.build_dependents id).count b = (g.build_dependencies b).count id := by
  unfold BuildGraph.build_dependents BuildGraph.build_dependencies
  induction g.edges with
  | nil => rfl
  | cons e rest ih =>
    cases e with
    | mk x y =>
      by_cases hx : x = b <;> by_cases hy : y = id <;>
        simp [List.filter_cons, List.count_cons, hx, hy, ih]

theorem countP_split_at (p q : BuildId → Bool) (a : BuildId)
    (hpq : ∀ x, x ≠ a → p x = q x) (hpa : p a = true) (hqa : q a = false) :
    ∀ l : List BuildId, l.countP p = l.countP q + l.count a := by
  intro l
  induction l with
  | nil => rfl
  | cons x rest ih =>
    rw [List.countP_cons, List.countP_cons, List.count_cons, ih]
    by_cases hx : x = a
    · subst hx
      rw [hpa, hqa]
      simp
      omega
    · rw [hpq x hx]
      have hxa : (x == a) = false := by simpa using hx
      rw [hxa]
      simp
      omega

theorem closureBy_sound (adj : BuildId → List BuildId)
    (R : BuildId → BuildId → Prop) (hadj : ∀ a b, b ∈ adj a → R a b) :
    ∀ (f : Nat) (seed : List BuildId) (n : BuildId),
      n ∈ closureBy adj f seed →
      ∃ m ∈ seed, Relation.ReflTransGen R m n := by
  intro f
  induction f with
  | zero => intro seed n h; exact ⟨n, h, .refl⟩
  | succ k ih =>
    intro seed n h
    rcases ih _ _ h with ⟨m, hm, hr⟩
    have hm2 : m ∈ seed ++ seed.flatMap adj := List.mem_dedup.mp hm
    rcases List.mem_append.mp hm2 with h1 | h1
    · exact ⟨m, h1, hr⟩
    · rcases List.mem_flatMap.mp h1 with ⟨x, hx, hmx⟩
      exact ⟨x, hx, Relation.ReflTransGen.head (hadj x m hmx) hr⟩

theorem depSuccB_congr (s s' : ExecSt)
    (h : ∀ x, (s'.lookup x).map (·.kind) = (s.lookup x).map (·.kind))
    (d : BuildId) : depSuccB s' d = depSuccB s d := by
  unfold depSuccB
  have hd := h d
  cases h1 : s'.lookup d with
  | none =>
    cases h2 : s.lookup d with
    | none => rfl
    | some b => rw [h1, h2] at hd; exact absurd hd (by simp)
  | some a =>
    cases h2 : s.lookup d with
    | none => rw [h1, h2] at hd; exact absurd hd (by simp)
    | some b =>
      rw [h1, h2] at hd
      have hk : a.kind = b.kind := by simpa using hd
      simp [hk]

/-- The inductive invariant of the executor state machine. `freshCount` is
the heart of the claim: a `Fresh` node's `pending_inputs` equals the
number of its direct-dependency occurrences not yet successfully finished,
`pendingInv` says `pending` holds exactly-ready `Fresh` nodes, and
`dispatchedDeps` says every node that was ever dispatched (`Started` or
finished through a worker) had all its dependencies successful. -/
structure Inv (g : BuildGraph) (s : ExecSt) : Prop where
  allFreshBeforeRun : s.build_started = false →
    ∀ b st, s.lookup b = some st → st.kind = .Fresh
  freshCount : ∀ b st, s.lookup b = some st → st.kind = .Fresh →
    st.pending_inputs
      = (g.build_dependencies b).countP (fun d => !depSuccB s d)
  pendingInv : ∀ b ∈ s.pending, ∃ st, s.lookup b = some st
    ∧ st.kind = .Fresh ∧ st.pending_inputs = 0
  pendingNodup : s.pending.Nodup
  dispatchedDeps : ∀ b st, s.lookup b = some st →
    (st.kind = .Started ∨ st.kind = .UpToDate ∨ st.kind = .Succeeded
      ∨ st.kind = .Failed) →
    ∀ d ∈ g.build_dependencies b, depSuccB s d = true

theorem inv_init (g : BuildGraph) : Inv g ExecSt.init := by
  refine ⟨?_, ?_, ?_, ?_, ?_⟩
  · intro _ b st h; cases h
  · intro b st h; cases h
  · intro b hb; cases hb
  · exact List.nodup_nil
  · intro b st h; cases h

theorem mem_insertPending (l : List BuildId) (b x : BuildId) :
    x ∈ insertPending l b ↔ x ∈ l ∨ x = b := by
  unfold insertPending
  split
  · rename_i h
    constructor
    · exact Or.inl
    · rintro (hx | rfl)
      · exact hx
      · exact h
  · simp

theorem insertPending_nodup (l : List BuildId) (b : BuildId) (h : l.Nodup) :
    (insertPending l b).Nodup := by
  unfold insertPending
  split
  · exact h
  · rename_i hb
    rw [List.nodup_append]
    exact ⟨h, List.nodup_singleton b, by
      intro x hx hxb
      rw [List.mem_singleton] at hxb
      exact hb (hxb ▸ hx)⟩

theorem getLast?_not_mem_dropLast (l : List BuildId) (b : BuildId)
    (h : l.getLast? = some b) (hnd : l.Nodup) : b ∉ l.dropLast := by
  induction l with
  | nil => cases h
  | cons x rest ih =>
    match rest, h with
    | [], h =>
      have : x = b := by simpa using h
      simp
    | y :: t, h =>
      have h2 : (y :: t).getLast? = some b := by
        rw [← h]
        rfl
      have hmem : b ∈ y :: t := List.mem_of_mem_getLast? h2
      rw [List.nodup_cons] at hnd
      intro hcontra
      rw [List.dropLast_cons₂, List.mem_cons] at hcontra
      rcases hcontra with rfl | hcontra
      · exact hnd.1 hmem
      · exact ih h2 hnd.2 hcontra

theorem depSuccB_builds (s s' : ExecSt) (node : BuildId) (v : BuildStatus)
    (h : s'.builds = setA s.builds node v) (d : BuildId) :
    depSuccB s' d
      = if node = d then v.kind.is_successful else depSuccB s d := by
  unfold depSuccB ExecSt.lookup
  rw [h, getA_setA]
  by_cases hd : node = d <;> simp [hd]

theorem depSuccB_all_false (s : ExecSt)
    (hfresh : ∀ b st, s.lookup b = some st → st.kind = .Fresh) (d : BuildId) :
    depSuccB s d = false := by
  unfold depSuccB
  cases h : s.lookup d with
  | none => rfl
  | some st =>
    show st.kind.is_successful = false
    rw [hfresh d st h]
    rfl

theorem countP_notDepSuccB_eq_length (s : ExecSt)
    (hfresh : ∀ b st, s.lookup b = some st → st.kind = .Fresh)
    (l : List BuildId) :
    l.countP (fun d => !depSuccB s d) = l.length := by
  rw [List.countP_eq_length]
  intro a _
  rw [depSuccB_all_false s hfresh]
  rfl

/-- The invariant in the form maintained through the `want` phase, where
every tracked node is still `Fresh` and counters are raw out-degrees. -/
def WantInv (g : BuildGraph) (s : ExecSt) : Prop :=
  s.build_started = false
  ∧ (∀ b st, s.lookup b = some st → st.kind = .Fresh)
  ∧ (∀ b st, s.lookup b = some st →
      st.pending_inputs = (g.build_dependencies b).length)
  ∧ (∀ b ∈ s.pending, ∃ st, s.lookup b = some st ∧ st.kind = .Fresh
      ∧ st.pending_inputs = 0)
  ∧ s.pending.Nodup

theorem wantLoop_preserves (g : BuildGraph) :
    ∀ (fuel : Nat) (stack : List BuildId) (s : ExecSt),
      WantInv g s → WantInv g (wantLoop g fuel stack s).1 := by
  intro fuel
  induction fuel with
  | zero => intro stack s h; exact h
  | succ n ih =>
    intro stack s h
    match stack with
    | [] => exact h
    | b :: rest =>
      by_cases hb : (s.lookup b).isSome = true
      · simpa [wantLoop, hb] using ih rest s h
      · obtain ⟨hflag, hfresh, hlen, hpend, hnd⟩ := h
        have hbnone : s.lookup b = none := by
          cases hx : s.lookup b
          · rfl
          · rw [hx] at hb; simp at hb
        simp only [wantLoop, hb, Bool.false_eq_true, if_false]
        apply ih
        by_cases hdeps : (g.build_dependencies b).length = 0
        · simp only [hdeps, if_true]
          refine ⟨hflag, ?_, ?_, ?_, ?_⟩
          · intro x st hx
            simp only [ExecSt.lookup, getA_setA] at hx
            by_cases hbx : b = x
            · rw [if_pos hbx] at hx
              cases hx
              rfl
            · rw [if_neg hbx] at hx
              exact hfresh x st hx
          · intro x st hx
            simp only [ExecSt.lookup, getA_setA] at hx
            by_cases hbx : b = x
            · rw [if_pos hbx] at hx
              cases hx
              rw [← hbx]
              exact hdeps.symm
            · rw [if_neg hbx] at hx
              exact hlen x st hx
          · intro x hxmem
            simp only [ExecSt.lookup, getA_setA]
            rcases (mem_insertPending s.pending b x).mp hxmem with hx | rfl
            · rcases hpend x hx with ⟨st, hst, hk, hc⟩
              have hbx : ¬ b = x := by
                intro e
                rw [e] at hbnone
                rw [hbnone] at hst
                cases hst
              rw [if_neg hbx]
              exact ⟨st, hst, hk, hc⟩
            · rw [if_pos rfl]
              exact ⟨⟨.Fresh, 0⟩, rfl, rfl, rfl⟩
          · exact insertPending_nodup s.pending b hnd
        · simp only [hdeps, if_false]
          refine ⟨hflag, ?_, ?_, ?_, ?_⟩
          · intro x st hx
            simp only [ExecSt.lookup, getA_setA] at hx
            by_cases hbx : b = x
            · rw [if_pos hbx] at hx
              cases hx
              rfl
            · rw [if_neg hbx] at hx
              exact hfresh x st hx
          · intro x st hx
            simp only [ExecSt.lookup, getA_setA] at hx
            by_cases hbx : b = x
            · rw [if_pos hbx] at hx
              cases hx
              rw [← hbx]
            · rw [if_neg hbx] at hx
              exact hlen x st hx
          · intro x hxmem
            simp only [ExecSt.lookup, getA_setA]
            rcases hpend x hxmem with ⟨st, hst, hk, hc⟩
            have hbx : ¬ b = x := by
              intro e
              rw [e] at hbnone
              rw [hbnone] at hst
              cases hst
            rw [if_neg hbx]
            exact ⟨st, hst, hk, hc⟩
          · exact hnd

theorem WantInv_of_Inv (g : BuildGraph) (s : ExecSt)
    (hflag : s.build_started = false) (hInv : Inv g s) : WantInv g s := by
  have hfresh := hInv.allFreshBeforeRun hflag
  refine ⟨hflag, hfresh, ?_, hInv.pendingInv, hInv.pendingNodup⟩
  intro b st h
  rw [hInv.freshCount b st h (hfresh b st h),
    countP_notDepSuccB_eq_length s hfresh]

theorem Inv_of_WantInv (g : BuildGraph) (s : ExecSt) (h : WantInv g s) :
    Inv g s := by
  obtain ⟨hflag, hfresh, hlen, hpend, hnd⟩ := h
  refine ⟨fun _ => hfresh, ?_, hpend, hnd, ?_⟩
  · intro b st hb _
    rw [hlen b st hb, countP_notDepSuccB_eq_length s hfresh]
  · intro b st hb hk
    rw [hfresh b st hb] at hk
    rcases hk with hk | hk | hk | hk <;> cases hk

theorem inv_start (g : BuildGraph) (s : ExecSt) (b : BuildId) (s' : ExecSt)
    (hflag : s.build_started = true) (hInv : Inv g s)
    (h : startBuild s = some (b, s')) : Inv g s' := by
  unfold startBuild at h
  match hlast : s.pending.getLast? with
  | none => rw [hlast] at h; exact absurd h (by simp)
  | some node =>
    rw [hlast] at h
    simp only [Option.bind_eq_bind, Option.some_bind] at h
    match hlk : s.lookup node with
    | none => rw [hlk] at h; exact absurd h (by simp)
    | some st =>
      rw [hlk] at h
      simp only [Option.some_bind, Option.pure_def, Option.some.injEq,
        Prod.mk.injEq] at h
      obtain ⟨rfl, rfl⟩ := h
      have hmem : node ∈ s.pending := List.mem_of_mem_getLast? hlast
      obtain ⟨st0, hst0, hk0, hc0⟩ := hInv.pendingInv node hmem
      have hst0eq : st0 = st := by
        rw [hlk] at hst0
        cases hst0
        rfl
      subst hst0eq
      have hds : ∀ d, depSuccB
          { s with
            pending := s.pending.dropLast
            builds := setA s.builds node { st0 with kind := .Started }
            running := s.running + 1 } d = depSuccB s d := by
        intro d
        rw [depSuccB_builds s _ node { st0 with kind := .Started } rfl d]
        by_cases hd : node = d
        · rw [if_pos hd]
          subst hd
          unfold depSuccB
          rw [hlk]
          show BuildStatusKind.Started.is_successful = st0.kind.is_successful
          rw [hk0]
          rfl
        · rw [if_neg hd]
      refine ⟨?_, ?_, ?_, ?_, ?_⟩
      · intro hf
        have hf2 : s.build_started = false := hf
        rw [hflag] at hf2
        cases hf2
      · intro x stx hx hkx
        simp only [ExecSt.lookup, getA_setA] at hx
        by_cases hbx : node = x
        · rw [if_pos hbx] at hx
          cases hx
          cases hkx
        · rw [if_neg hbx] at hx
          rw [hInv.freshCount x stx hx hkx]
          exact (List.countP_congr (fun a _ => by rw [hds a])).symm
      · intro x hxmem
        have hxp : x ∈ s.pending :=
          (List.dropLast_sublist s.pending).mem hxmem
        have hxb : x ≠ node := by
          intro e
          exact getLast?_not_mem_dropLast s.pending node hlast hInv.pendingNodup
            (e ▸ hxmem)
        obtain ⟨stx, hstx, hkx, hcx⟩ := hInv.pendingInv x hxp
        refine ⟨stx, ?_, hkx, hcx⟩
        simp only [ExecSt.lookup, getA_setA]
        rw [if_neg (fun e => hxb e.symm)]
        exact hstx
      · exact List.Nodup.sublist (List.dropLast_sublist s.pending)
          hInv.pendingNodup
      · intro x stx hx _hdisp d hd
        rw [hds d]
        simp only [ExecSt.lookup, getA_setA] at hx
        by_cases hbx : node = x
        · rw [if_pos hbx] at hx
          subst hbx
          have hcnt : (g.build_dependencies node).countP
              (fun d => !depSuccB s d) = 0 := by
            rw [← hInv.freshCount node st0 hlk hk0]
            exact hc0
          have hall := List.countP_eq_zero.mp hcnt d hd
          cases hq : depSuccB s d
          · rw [hq] at hall
            simp at hall
          · rfl
        · rw [if_neg hbx] at hx
          exact hInv.dispatchedDeps x stx hx _hdisp d hd

theorem is_successful_cases (k : BuildStatusKind)
    (h : k.is_successful = true) : k = .UpToDate ∨ k = .Succeeded := by
  cases k <;> simp_all [BuildStatusKind.is_successful]

theorem is_finished_of_successful (k : BuildStatusKind)
    (h : k.is_successful = true) : k.is_finished = true := by
  cases k <;> simp_all [BuildStatusKind.is_successful, BuildStatusKind.is_finished]

theorem succUpdate_cases (s : ExecSt) (c : BuildId) (s' : ExecSt)
    (h : succUpdate s c = some s') :
    (s.lookup c = none ∧ s' = s)
    ∨ (∃ dep, s.lookup c = some dep ∧ dep.kind.is_finished = true
        ∧ dep.kind.is_successful = false ∧ s' = s)
    ∨ (∃ dep, s.lookup c = some dep ∧ dep.kind.is_finished = false
        ∧ s'.builds
            = setA s.builds c { dep with pending_inputs := dep.pending_inputs - 1 }
        ∧ s'.running = s.running ∧ s'.finished = s.finished
        ∧ s'.failed = s.failed ∧ s'.build_started = s.build_started
        ∧ ((dep.pending_inputs - 1 = 0
              ∧ s'.pending = insertPending s.pending c)
            ∨ (¬ dep.pending_inputs - 1 = 0 ∧ s'.pending = s.pending))) := by
  unfold succUpdate at h
  split at h
  · rename_i hc
    exact Or.inl ⟨hc, (Option.some.inj h).symm⟩
  · rename_i dep hc
    split at h
    · rename_i hfin
      split at h
      · cases h
      · rename_i hsucc
        refine Or.inr (Or.inl ⟨dep, hc, hfin, ?_, (Option.some.inj h).symm⟩)
        simpa using hsucc
    · rename_i hfin
      split at h
      · rename_i hz
        refine Or.inr (Or.inr ⟨dep, hc, by simpa using hfin, ?_⟩)
        obtain rfl := Option.some.inj h
        exact ⟨rfl, rfl, rfl, rfl, rfl, Or.inl ⟨hz, rfl⟩⟩
      · rename_i hz
        refine Or.inr (Or.inr ⟨dep, hc, by simpa using hfin, ?_⟩)
        obtain rfl := Option.some.inj h
        exact ⟨rfl, rfl, rfl, rfl, rfl, Or.inr ⟨hz, rfl⟩⟩

theorem succ_fold_inv (g : BuildGraph) :
    ∀ (l : List BuildId) (s s' : ExecSt),
      l.foldlM succUpdate s = some s' →
      (∀ c ∈ l, ∀ st, s.lookup c = some st →
          st.kind.is_finished = false → st.kind = .Fresh) →
      (∀ b st, s.lookup b = some st → st.kind = .Fresh →
          st.pending_inputs
            = (g.build_dependencies b).countP (fun d => !depSuccB s d)
              + l.count b) →
      (∀ b ∈ s.pending, ∃ st, s.lookup b = some st ∧ st.kind = .Fresh
          ∧ st.pending_inputs = 0) →
      s.pending.Nodup →
      ((∀ x, (s'.lookup x).map (·.kind) = (s.lookup x).map (·.kind))
        ∧ s'.build_started = s.build_started
        ∧ (∀ b st, s'.lookup b = some st → st.kind = .Fresh →
            st.pending_inputs
              = (g.build_dependencies b).countP (fun d => !depSuccB s' d))
        ∧ (∀ b ∈ s'.pending, ∃ st, s'.lookup b = some st ∧ st.kind = .Fresh
            ∧ st.pending_inputs = 0)
        ∧ s'.pending.Nodup) := by
  intro l
  induction l with
  | nil =>
    intro s s' h hA hB hC hD
    cases h
    refine ⟨fun x => rfl, rfl, ?_, hC, hD⟩
    intro b st hb hk
    simpa using hB b st hb hk
  | cons c rest ih =>
    intro s s' h hA hB hC hD
    rw [List.foldlM_cons] at h
    match hsu : succUpdate s c with
    | none => rw [hsu] at h; exact absurd h (by simp)
    | some s1 =>
      rw [hsu] at h
      simp only [Option.bind_eq_bind, Option.some_bind] at h
      rcases succUpdate_cases s c s1 hsu with ⟨hcn, hs1⟩ |
        ⟨dep, hcd, _hfin, _hsucc, hs1⟩ | ⟨dep, hcd, hfin, hbuilds, _hrun,
          _hfin2, _hfail, hflag, hpend⟩
      · -- untracked dependent: state unchanged
        subst hs1
        refine ih _ s' h (fun x hx => hA x (List.mem_cons_of_mem c hx)) ?_ hC hD
        intro b st hb hk
        have hbc : ¬ c = b := by
          intro e
          rw [e] at hcn
          rw [hcn] at hb
          cases hb
        have := hB b st hb hk
        rwa [List.count_cons, if_neg (by simpa using hbc), Nat.add_zero]
          at this
      · -- finished (failed) dependent: state unchanged
        subst hs1
        refine ih _ s' h (fun x hx => hA x (List.mem_cons_of_mem c hx)) ?_ hC hD
        intro b st hb hk
        have hbc : ¬ c = b := by
          intro e
          rw [e] at hcd
          rw [hcd] at hb
          cases hb
          rw [hk] at _hfin
          cases _hfin
        have := hB b st hb hk
        rwa [List.count_cons, if_neg (by simpa using hbc), Nat.add_zero]
          at this
      · -- fresh dependent: counter decremented, possibly entering pending
        have hkFresh : dep.kind = .Fresh :=
          hA c (List.mem_cons_self c rest) dep hcd hfin
        have hcnt : dep.pending_inputs
            = (g.build_dependencies c).countP (fun d => !depSuccB s d)
              + rest.count c + 1 := by
          have := hB c dep hcd hkFresh
          rwa [List.count_cons, if_pos (by simp), ← Nat.add_assoc] at this
        have hlk1 : ∀ x, s1.lookup x
            = if c = x then some { dep with pending_inputs := dep.pending_inputs - 1 }
              else s.lookup x := by
          intro x
          show getA s1.builds x = _
          rw [hbuilds, getA_setA]
          rfl
        have hds1 : ∀ d, depSuccB s1 d = depSuccB s d := by
          intro d
          rw [depSuccB_builds s s1 c _ hbuilds d]
          by_cases hd : c = d
          · rw [if_pos hd]
            subst hd
            unfold depSuccB
            rw [hcd]
          · rw [if_neg hd]
        have hcpend : c ∉ s.pending := by
          intro hcp
          obtain ⟨stc, hstc, _hkc, hcc⟩ := hC c hcp
          rw [hcd] at hstc
          cases hstc
          rw [hcc] at hcnt
          cases hcnt
        -- establish the four hypotheses at s1, then apply ih
        have hA1 : ∀ x ∈ rest, ∀ st, s1.lookup x = some st →
            st.kind.is_finished = false → st.kind = .Fresh := by
          intro x hx st hst hfst
          rw [hlk1 x] at hst
          by_cases hcx : c = x
          · rw [if_pos hcx] at hst
            cases hst
            exact hkFresh
          · rw [if_neg hcx] at hst
            exact hA x (List.mem_cons_of_mem c hx) st hst hfst
        have hB1 : ∀ b st, s1.lookup b = some st → st.kind = .Fresh →
            st.pending_inputs
              = (g.build_dependencies b).countP (fun d => !depSuccB s1 d)
                + rest.count b := by
          intro b st hb hk
          have hcp : (g.build_dependencies b).countP (fun d => !depSuccB s1 d)
              = (g.build_dependencies b).countP (fun d => !depSuccB s d) :=
            List.countP_congr (fun a _ => by rw [hds1 a])
          rw [hcp]
          rw [hlk1 b] at hb
          by_cases hcb : c = b
          · rw [if_pos hcb] at hb
            cases hb
            subst hcb
            show dep.pending_inputs - 1 = _
            rw [hcnt]
            omega
          · rw [if_neg hcb] at hb
            have := hB b st hb hk
            rwa [List.count_cons, if_neg (by simpa using hcb), Nat.add_zero]
              at this
        have hC1 : ∀ b ∈ s1.pending, ∃ st, s1.lookup b = some st
            ∧ st.kind = .Fresh ∧ st.pending_inputs = 0 := by
          intro x hx
          rcases hpend with ⟨hz, hp⟩ | ⟨_hz, hp⟩
          · rw [hp] at hx
            rcases (mem_insertPending s.pending c x).mp hx with hx' | hxc
            · obtain ⟨stx, hstx, hkx, hcx⟩ := hC x hx'
              refine ⟨stx, ?_, hkx, hcx⟩
              rw [hlk1 x, if_neg (fun e => hcpend (by rw [e]; exact hx'))]
              exact hstx
            · subst hxc
              refine ⟨{ dep with pending_inputs := dep.pending_inputs - 1 },
                ?_, hkFresh, hz⟩
              rw [hlk1 x, if_pos rfl]
          · rw [hp] at hx
            obtain ⟨stx, hstx, hkx, hcx⟩ := hC x hx
            refine ⟨stx, ?_, hkx, hcx⟩
            rw [hlk1 x, if_neg (fun e => hcpend (by rw [e]; exact hx))]
            exact hstx
        have hD1 : s1.pending.Nodup := by
          rcases hpend with ⟨_hz, hp⟩ | ⟨_hz, hp⟩
          · rw [hp]
            exact insertPending_nodup s.pending c hD
          · rw [hp]
            exact hD
        obtain ⟨hK, hFlag, hFr, hPe, hNd⟩ := ih s1 s' h hA1 hB1 hC1 hD1
        refine ⟨?_, hFlag.trans hflag, hFr, hPe, hNd⟩
        intro x
        rw [hK x, hlk1 x]
        by_cases hcx : c = x
        · rw [if_pos hcx]
          subst hcx
          rw [hcd]
          rfl
        · rw [if_neg hcx]

theorem depSuccB_true_elim (s : ExecSt) (d : BuildId)
    (h : depSuccB s d = true) :
    ∃ st, s.lookup d = some st ∧ st.kind.is_successful = true := by
  unfold depSuccB at h
  match hq : s.lookup d with
  | none =>
    rw [hq] at h
    exact absurd h (by simp)
  | some st =>
    rw [hq] at h
    exact ⟨st, rfl, h⟩

/-- In any invariant state, every strict transitive dependency of a node
that was ever dispatched is successfully finished. -/
theorem reach_dep_successful (g : BuildGraph) (s : ExecSt) (hInv : Inv g s)
    (id : BuildId) (stI : BuildStatus) (hlk : s.lookup id = some stI)
    (hkI : stI.kind = .Started) :
    ∀ n, Relation.ReflTransGen (fun a b => b ∈ g.build_dependencies a) id n →
      n = id ∨ depSuccB s n = true := by
  intro n h
  induction h with
  | refl => exact Or.inl rfl
  | tail _hab hbc ih =>
    rcases ih with hbid | hbsucc
    · rw [hbid] at hbc
      exact Or.inr (hInv.dispatchedDeps id stI hlk (Or.inl hkI) _ hbc)
    · obtain ⟨stB, hqB, hsB⟩ := depSuccB_true_elim s _ hbsucc
      rcases is_successful_cases _ hsB with hkB | hkB
      · exact Or.inr (hInv.dispatchedDeps _ stB hqB
          (Or.inr (Or.inl hkB)) _ hbc)
      · exact Or.inr (hInv.dispatchedDeps _ stB hqB
          (Or.inr (Or.inr (Or.inl hkB))) _ hbc)

theorem foldl_fix (f : ExecSt → BuildId → ExecSt) (s : ExecSt) :
    ∀ l : List BuildId, (∀ n ∈ l, f s n = s) → l.foldl f s = s := by
  intro l
  induction l with
  | nil => intro _; rfl
  | cons x rest ih =>
    intro h
    rw [List.foldl_cons, h x (List.mem_cons_self x rest)]
    exact ih (fun n hn => h n (List.mem_cons_of_mem x hn))

theorem inv_finish_succ_aux (g : BuildGraph) (s s1 : ExecSt) (id : BuildId)
    (stat : BuildStatusKind) (stI : BuildStatus) (s' : ExecSt)
    (hflag : s.build_started = true)
    (hlk : s.lookup id = some stI) (hkI : stI.kind = .Started)
    (hsucc : stat.is_successful = true)
    (hs1b : s1.builds = setA s.builds id { stI with kind := stat })
    (hs1p : s1.pending = s.pending)
    (hs1f : s1.build_started = s.build_started)
    (hInv : Inv g s)
    (h : (g.build_dependents id).foldlM succUpdate s1 = some s') :
    Inv g s' := by
  have hlk1 : ∀ x, s1.lookup x
      = if id = x then some { stI with kind := stat } else s.lookup x := by
    intro x
    show getA s1.builds x = _
    rw [hs1b, getA_setA]
    rfl
  have hds1 : ∀ d, depSuccB s1 d
      = if id = d then stat.is_successful else depSuccB s d := fun d =>
    depSuccB_builds s s1 id { stI with kind := stat } hs1b d
  have hsid : depSuccB s id = false := by
    unfold depSuccB
    rw [hlk]
    show stI.kind.is_successful = false
    rw [hkI]
    rfl
  have hA1 : ∀ c ∈ g.build_dependents id, ∀ st, s1.lookup c = some st →
      st.kind.is_finished = false → st.kind = .Fresh := by
    intro c hc st hst hf
    rw [hlk1 c] at hst
    by_cases hic : id = c
    · rw [if_pos hic] at hst
      cases hst
      rw [show ({ stI with kind := stat } : BuildStatus).kind = stat from rfl,
        is_finished_of_successful stat hsucc] at hf
      cases hf
    · rw [if_neg hic] at hst
      have hnotStarted : ¬ st.kind = .Started := by
        intro hS
        have hidc : id ∈ g.build_dependencies c :=
          (mem_dependencies_iff g c id).mpr ((mem_dependents_iff g c id).mp hc)
        have := hInv.dispatchedDeps c st hst (Or.inl hS) id hidc
        rw [hsid] at this
        cases this
      cases hk : st.kind
      · rfl
      · exact absurd hk hnotStarted
      · rw [hk] at hf; cases hf
      · rw [hk] at hf; cases hf
      · rw [hk] at hf; cases hf
      · rw [hk] at hf; cases hf
  have hB1 : ∀ b st, s1.lookup b = some st → st.kind = .Fresh →
      st.pending_inputs
        = (g.build_dependencies b).countP (fun d => !depSuccB s1 d)
          + (g.build_dependents id).count b := by
    intro b st hb hk
    rw [hlk1 b] at hb
    by_cases hib : id = b
    · rw [if_pos hib] at hb
      cases hb
      rw [show ({ stI with kind := stat } : BuildStatus).kind = stat from rfl]
        at hk
      rw [hk] at hsucc
      cases hsucc
    · rw [if_neg hib] at hb
      rw [hInv.freshCount b st hb hk]
      have hpq : ∀ x, x ≠ id → (!depSuccB s x) = (!depSuccB s1 x) := by
        intro x hx
        rw [hds1 x, if_neg (fun e => hx e.symm)]
      have hpa : (!depSuccB s id) = true := by
        rw [hsid]
        rfl
      have hqa : (!depSuccB s1 id) = false := by
        rw [hds1 id, if_pos rfl, hsucc]
        rfl
      rw [countP_split_at _ _ id hpq hpa hqa (g.build_dependencies b)]
      rw [count_dependents_eq g id b]
  have hC1 : ∀ b ∈ s1.pending, ∃ st, s1.lookup b = some st
      ∧ st.kind = .Fresh ∧ st.pending_inputs = 0 := by
    rw [hs1p]
    intro x hx
    obtain ⟨stx, hstx, hkx, hcx⟩ := hInv.pendingInv x hx
    have hix : ¬ id = x := by
      intro e
      rw [← e] at hstx
      rw [hlk] at hstx
      cases hstx
      rw [hkI] at hkx
      cases hkx
    refine ⟨stx, ?_, hkx, hcx⟩
    rw [hlk1 x, if_neg hix]
    exact hstx
  have hD1 : s1.pending.Nodup := by
    rw [hs1p]
    exact hInv.pendingNodup
  obtain ⟨hK, hFlag, hFr, hPe, hNd⟩ :=
    succ_fold_inv g (g.build_dependents id) s1 s' h hA1 hB1 hC1 hD1
  have hds' : ∀ d, depSuccB s' d = depSuccB s1 d :=
    depSuccB_congr s1 s' hK
  refine ⟨?_, hFr, hPe, hNd, ?_⟩
  · intro hf
    rw [hFlag, hs1f, hflag] at hf
    cases hf
  · intro b st' hb' hdisp d hd
    rw [hds' d, hds1 d]
    by_cases hid : id = d
    · rw [if_pos hid]
      exact hsucc
    · rw [if_neg hid]
      have hKb := hK b
      rw [hb'] at hKb
      cases hq : s1.lookup b with
      | none => rw [hq] at hKb; cases hKb
      | some st1b =>
        rw [hq] at hKb
        have hkind : st'.kind = st1b.kind := by simpa using hKb
        rw [hlk1 b] at hq
        by_cases hib : id = b
        · rw [← hib] at hd
          exact hInv.dispatchedDeps id stI hlk (Or.inl hkI) d hd
        · rw [if_neg hib] at hq
          have hdisp' : st1b.kind = .Started ∨ st1b.kind = .UpToDate
              ∨ st1b.kind = .Succeeded ∨ st1b.kind = .Failed := by
            rw [← hkind]
            exact hdisp
          exact hInv.dispatchedDeps b st1b hq hdisp' d hd

theorem inv_finish_fail_aux (g : BuildGraph) (s s2 : ExecSt) (id : BuildId)
    (stI : BuildStatus) (s' : ExecSt)
    (hflag : s.build_started = true)
    (hlk : s.lookup id = some stI) (hkI : stI.kind = .Started)
    (hs2b : s2.builds = setA s.builds id { stI with kind := .Failed })
    (hs2p : s2.pending = s.pending)
    (hs2f : s2.build_started = s.build_started)
    (hInv : Inv g s)
    (hfold : s' = (dfsMarked g id).foldl skipMark s2) : Inv g s' := by
  have hlk2 : ∀ x, s2.lookup x
      = if id = x then some { stI with kind := .Failed } else s.lookup x := by
    intro x
    show getA s2.builds x = _
    rw [hs2b, getA_setA]
    rfl
  have hds2 : ∀ d, depSuccB s2 d
      = if id = d then false else depSuccB s d := by
    intro d
    rw [depSuccB_builds s s2 id { stI with kind := .Failed } hs2b d]
    by_cases hid : id = d
    · simp [hid, BuildStatusKind.is_successful]
    · simp [hid]
  have hsid : depSuccB s id = false := by
    unfold depSuccB
    rw [hlk]
    show stI.kind.is_successful = false
    rw [hkI]
    rfl
  have hnoop : (dfsMarked g id).foldl skipMark s2 = s2 := by
    apply foldl_fix
    intro n hn
    obtain ⟨hncl, hne0⟩ := List.mem_filter.mp hn
    have hne : n ≠ id := of_decide_eq_true hne0
    obtain ⟨m, hm, hr⟩ := closureBy_sound (succsE g.edges)
      (fun a b => b ∈ g.build_dependencies a) (fun a b hb => hb)
      (g.edges.length + 1) [id] n hncl
    have hmid : m = id := by simpa using hm
    rw [hmid] at hr
    rcases reach_dep_successful g s hInv id stI hlk hkI n hr with hnid | hsn
    · exact absurd hnid hne
    · obtain ⟨stN, hqN, hsN⟩ := depSuccB_true_elim s n hsn
      have hlkN : s2.lookup n = some stN := by
        rw [hlk2 n, if_neg (fun e => hne e.symm)]
        exact hqN
      have hfinN : stN.kind.is_finished = true :=
        is_finished_of_successful _ hsN
      simp [skipMark, hlkN, hfinN]
  rw [hfold, hnoop]
  have hdsEq : ∀ a, (!depSuccB s a) = (!depSuccB s2 a) := by
    intro a
    rw [hds2 a]
    by_cases hia : id = a
    · rw [if_pos hia, ← hia, hsid]
    · rw [if_neg hia]
  refine ⟨?_, ?_, ?_, ?_, ?_⟩
  · intro hf
    rw [hs2f, hflag] at hf
    cases hf
  · intro b st hb hk
    rw [hlk2 b] at hb
    by_cases hib : id = b
    · rw [if_pos hib] at hb
      cases hb
      rw [show ({ stI with kind := .Failed } : BuildStatus).kind
        = .Failed from rfl] at hk
      cases hk
    · rw [if_neg hib] at hb
      rw [hInv.freshCount b st hb hk]
      exact List.countP_congr (fun a _ => by rw [hdsEq a])
  · intro x hx
    rw [hs2p] at hx
    obtain ⟨stx, hstx, hkx, hcx⟩ := hInv.pendingInv x hx
    have hix : ¬ id = x := by
      intro e
      rw [← e] at hstx
      rw [hlk] at hstx
      cases hstx
      rw [hkI] at hkx
      cases hkx
    refine ⟨stx, ?_, hkx, hcx⟩
    rw [hlk2 x, if_neg hix]
    exact hstx
  · rw [hs2p]
    exact hInv.pendingNodup
  · intro b st hb hdisp d hd
    rw [hds2 d]
    rw [hlk2 b] at hb
    by_cases hib : id = b
    · rw [if_pos hib] at hb
      cases hb
      rw [← hib] at hd
      have hds := hInv.dispatchedDeps id stI hlk (Or.inl hkI) d hd
      by_cases hda : id = d
      · rw [← hda, hsid] at hds
        cases hds
      · rw [if_neg hda]
        exact hds
    · rw [if_neg hib] at hb
      have hds := hInv.dispatchedDeps b st hb hdisp d hd
      by_cases hda : id = d
      · rw [← hda, hsid] at hds
        cases hds
      · rw [if_neg hda]
        exact hds

theorem inv_finish (g : BuildGraph) (s : ExecSt) (id : BuildId)
    (stat : BuildStatusKind) (s' : ExecSt)
    (hflag : s.build_started = true)
    (hkm : (s.lookup id).map (·.kind) = some .Started)
    (hstat : stat = .UpToDate ∨ stat = .Succeeded ∨ stat = .Failed)
    (h : buildFinished g s id stat = some s') (hInv : Inv g s) :
    Inv g s' := by
  obtain ⟨stI, hlk, hkI⟩ : ∃ stI, s.lookup id = some stI
      ∧ stI.kind = .Started := by
    cases hq : s.lookup id with
    | none => rw [hq] at hkm; cases hkm
    | some stI =>
      rw [hq] at hkm
      exact ⟨stI, rfl, by simpa using hkm⟩
  have hlk' : getA s.builds id = some stI := hlk
  rcases hstat with rfl | rfl | rfl
  · unfold buildFinished at h
    split at h
    · exact Option.noConfusion h
    · split at h
      · exact Option.noConfusion h
      · rename_i build heq
        rw [hlk'] at heq
        obtain rfl : stI = build := Option.some.inj heq
        split at h
        · rename_i hfin
          rw [hkI] at hfin
          exact absurd hfin (by decide)
        · apply inv_finish_succ_aux g s _ id .UpToDate stI s' hflag hlk hkI
            rfl _ _ _ hInv h <;> rfl
  · unfold buildFinished at h
    split at h
    · exact Option.noConfusion h
    · split at h
      · exact Option.noConfusion h
      · rename_i build heq
        rw [hlk'] at heq
        obtain rfl : stI = build := Option.some.inj heq
        split at h
        · rename_i hfin
          rw [hkI] at hfin
          exact absurd hfin (by decide)
        · apply inv_finish_succ_aux g s _ id .Succeeded stI s' hflag hlk hkI
            rfl _ _ _ hInv h <;> rfl
  · unfold buildFinished at h
    split at h
    · exact Option.noConfusion h
    · split at h
      · exact Option.noConfusion h
      · rename_i build heq
        rw [hlk'] at heq
        obtain rfl : stI = build := Option.some.inj heq
        split at h
        · rename_i hfin
          rw [hkI] at hfin
          exact absurd hfin (by decide)
        · apply inv_finish_fail_aux g s _ id stI s' hflag hlk hkI
            _ _ _ hInv (Option.some.inj h).symm <;> rfl

theorem inv_step (g : BuildGraph) (s s' : ExecSt) (hInv : Inv g s)
    (hstep : Step g s s') : Inv g s' := by
  cases hstep with
  | want ids fuel _ _ hflag heq =>
    have hw := wantLoop_preserves g fuel ids s (WantInv_of_Inv g s hflag hInv)
    rw [heq] at hw
    exact Inv_of_WantInv g s' hw
  | runStart _ hflag =>
    refine ⟨?_, hInv.freshCount, hInv.pendingInv, hInv.pendingNodup,
      hInv.dispatchedDeps⟩
    intro hf
    exact absurd hf (by simp)
  | start _ b _ hflag hsb => exact inv_start g s b s' hflag hInv hsb
  | finish _ id stat _ hflag hkm hstat h =>
    exact inv_finish g s id stat s' hflag hkm hstat h hInv

theorem inv_reachable (g : BuildGraph) (s : ExecSt) (h : Reachable g s) :
    Inv g s := by
  induction h with
  | init => exact inv_init g
  | step _hr hs ih => exact inv_step g _ _ ih hs

/-- C2: in every reachable executor state, a node that is eligible for
dispatch (in `pending`) or already dispatched (`Started`) has every direct
graph dependency in a successful terminal state (`UpToDate` or
`Succeeded`). The proof is by the inductive invariant `Inv`, whose
`freshCount`/`pendingInv` fields capture the claim's mechanism: an action
enters `pending` only when first tracked with zero dependencies, or when
its `pending_inputs` counter — decremented once per successfully finished
direct-dependency edge — reaches zero. -/
theorem c2_dispatch_only_after_deps_successful (g : BuildGraph)
    (s : ExecSt) (h : Reachable g s) (b : BuildId)
    (hb : b ∈ s.pending ∨ (s.lookup b).map (·.kind) = some .Started) :
    ∀ d ∈ g.build_dependencies b, depSuccB s d = true := by
  have hInv := inv_reachable g s h
  rcases hb with hb | hb
  · obtain ⟨st, hst, hk, hc⟩ := hInv.pendingInv b hb
    intro d hd
    have hcnt := hInv.freshCount b st hst hk
    rw [hc] at hcnt
    have hall2 : ¬ (!depSuccB s d) = true :=
      List.countP_eq_zero.mp hcnt.symm d hd
    cases hq : depSuccB s d with
    | false =>
      rw [hq] at hall2
      exact absurd rfl hall2
    | true => rfl
  · obtain ⟨st, hst, hk⟩ : ∃ st, s.lookup b = some st
        ∧ st.kind = .Started := by
      cases hq : s.lookup b with
      | none => rw [hq] at hb; cases hb
      | some st =>
        rw [hq] at hb
        exact ⟨st, rfl, by simpa using hb⟩
    exact hInv.dispatchedDeps b st hst (Or.inl hk)

/-- Two-node graph for the C2 witness: node 1 depends on node 0. -/
def c2g : BuildGraph :=
  { nodes := [{ command := .Phony, ins := [], outs := [] },
      { command := .Phony, ins := [], outs := [] }]
    files := [], edges := [(1, 0)] }

/-- Executor state after `want [1]` on `c2g`. -/
def c2s1 : ExecSt :=
  ⟨[0], [(0, ⟨.Fresh, 0⟩), (1, ⟨.Fresh, 1⟩)], 0, 0, 0, false⟩

/-- The same state after `run()` flips `build_started`. -/
def c2s2 : ExecSt :=
  ⟨[0], [(0, ⟨.Fresh, 0⟩), (1, ⟨.Fresh, 1⟩)], 0, 0, 0, true⟩

/-- State after node 0 is dispatched. -/
def c2s3 : ExecSt :=
  ⟨[], [(0, ⟨.Started, 0⟩), (1, ⟨.Fresh, 1⟩)], 1, 0, 0, true⟩

/-- State after node 0 completes `Succeeded`: node 1 becomes pending. -/
def c2s4 : ExecSt :=
  ⟨[1], [(1, ⟨.Fresh, 0⟩), (0, ⟨.Succeeded, 0⟩)], 0, 1, 0, true⟩

/-- C2 witness: a concrete four-step run (want, run, dispatch node 0,
finish node 0 successfully) reaches a state where node 1 is pending, and
the theorem instantiates to: its one dependency, node 0, is successfully
finished. -/
theorem c2_witness : depSuccB c2s4 0 = true :=
  c2_dispatch_only_after_deps_successful c2g c2s4
    (Reachable.step
      (Reachable.step
        (Reachable.step
          (Reachable.step Reachable.init
            (Step.want [1] 3 ExecSt.init c2s1 rfl (by decide)))
          (Step.runStart c2s1 rfl))
        (Step.start c2s2 0 c2s3 rfl (by decide)))
      (Step.finish c2s3 0 .Succeeded c2s4 rfl (by decide)
        (Or.inr (Or.inl rfl)) (by decide)))
    1 (Or.inl (by decide)) 0 (by decide)

/-- C5 witness: a concrete outdated one-output action, run successfully
from the empty database, commits exactly the records the theorem
describes. -/
theorem c5_witness :
    c5db'.get_build_info c5bh = some ⟨7, none, c5ih, []⟩
    ∧ ∀ out ∈ ([0] : List FileId), ∃ p, c5g.lookup_path out = some p
        ∧ c5db'.get_file_info p = some ⟨7, c5bh⟩ :=
  c5_successful_run_commits_records (fun _ => 0) (fun _ => (0, 0))
    (fun _ => 0) (fun _ => true) c5world DbInner.empty c5g 0
    { command := .Phony, ins := [], outs := [0] } c5bh c5ih c5db'
    (.ok .Succeeded) rfl rfl rfl rfl (Or.inl rfl) rfl

end N2o5
